import Mathlib

/-!
# Verification of the pytorrent BitTorrent client core

Shallow embedding of the pytorrent repository (bencode codec, peer-wire
framing parser, piece/block state machine, piece manager scheduling,
peer retry backoff, tracker clients and tracker aggregation), with
theorems checking the natural-language specification against the code.

Bytes are modelled as `Nat`, byte strings as `List Nat`, wall-clock
times as `ℚ`.  SHA-1 is treated as an abstract function parameter: the
verified properties concern the control flow around the hash comparison,
not the hash itself.  Randomness (`random.shuffle`) is modelled by
quantifying over permutation-producing functions.
-/

namespace PyTorrent

/-! ## Peer-wire framing parser (src/peer_connection.py, `_parse_one`)

`_parse_one` consumes a 4-byte big-endian length header from
`_recv_buffer` (a zero length is a keep-alive), stores the pending
payload length in `_bytes_needed`, and once enough bytes are buffered
emits one message consisting of an id byte and the rest of the payload.
-/

/-- A parsed peer-wire message: either a keep-alive (zero-length frame) or
a message with a one-byte id and a payload. -/
inductive WireMsg where
  | keepAlive : WireMsg
  | message (id : Nat) (payload : List Nat) : WireMsg
deriving DecidableEq, Repr

/-- Incremental framing state: the receive buffer plus the pending
payload length (`_recv_buffer` and `_bytes_needed` in the source). -/
structure ParseState where
  recvBuffer : List Nat
  bytesNeeded : Option Nat
deriving DecidableEq, Repr

/-- Big-endian 32-bit value of four bytes (`struct.unpack(">I", ...)`). -/
def be32 (a b c d : Nat) : Nat := ((a * 256 + b) * 256 + c) * 256 + d

/-- One call to `_parse_one`: when no payload length is pending, consume a
4-byte length header (a zero length emits a keep-alive, otherwise the
length is stored); then, if the whole pending payload is buffered,
consume it and emit the message made of its first byte (id) and the
rest.  The source stores the header length and falls through to the
payload check within the same call; the payload-consuming logic is
therefore duplicated in the header branch here.  (The `[]` payload arms
are unreachable because a stored length is never zero; `payload[0]` in
the source presupposes a nonempty payload.) -/
def parseOne (s : ParseState) : Option WireMsg × ParseState :=
  match s.bytesNeeded with
  | none =>
    match s.recvBuffer with
    | a :: b :: c :: d :: rest =>
      if be32 a b c d = 0 then (some WireMsg.keepAlive, ⟨rest, none⟩)
      else if be32 a b c d ≤ rest.length then
        match rest.take (be32 a b c d) with
        | i :: payload =>
          (some (WireMsg.message i payload), ⟨rest.drop (be32 a b c d), none⟩)
        | [] => (none, ⟨rest, some (be32 a b c d)⟩)
      else (none, ⟨rest, some (be32 a b c d)⟩)
    | _ => (none, s)
  | some n =>
    if n ≤ s.recvBuffer.length then
      match s.recvBuffer.take n with
      | i :: payload => (some (WireMsg.message i payload), ⟨s.recvBuffer.drop n, none⟩)
      | [] => (none, s)
    else (none, s)

/-- Drain the parser: call `parseOne` repeatedly until it yields no
message, collecting the emitted messages in order (the receive loop
drains `_parse_one` until it returns `None`). -/
def drainLoop (s : ParseState) : List WireMsg × ParseState :=
  match h : parseOne s with
  | (none, t) => ([], t)
  | (some m, t) =>
    let r := drainLoop t
    (m :: r.1, r.2)
termination_by s.recvBuffer.length
decreasing_by
  unfold parseOne at h
  split at h
  · split at h
    · split at h
      · rename_i hbuf _
        simp only [Prod.mk.injEq] at h
        obtain ⟨-, ht⟩ := h
        subst ht
        simp [hbuf]
        omega
      · split at h
        · split at h
          · simp only [Prod.mk.injEq] at h
            obtain ⟨-, ht⟩ := h
            subst ht
            simp only [List.length_drop]
            simp_all
            omega
          · simp_all
        · simp_all
    · simp_all
  · split at h
    · split at h
      · rename_i hn htake
        have h4 := congrArg List.length htake
        simp only [List.length_take, List.length_cons] at h4
        simp only [Prod.mk.injEq] at h
        obtain ⟨-, ht⟩ := h
        subst ht
        simp only [List.length_drop]
        omega
      · simp_all
    · simp_all

/-- Feed one chunk of received bytes into the incremental parser and
drain it: extend the buffer, then emit every complete message. -/
def feedChunk (s : ParseState) (chunk : List Nat) : List WireMsg × ParseState :=
  drainLoop ⟨s.recvBuffer ++ chunk, s.bytesNeeded⟩

/-- Feed a sequence of chunks, draining after each chunk, and collect all
emitted messages in order. -/
def feedAll (s : ParseState) : List (List Nat) → List WireMsg × ParseState
  | [] => ([], s)
  | c :: cs =>
    let r1 := feedChunk s c
    let r2 := feedAll r1.2 cs
    (r1.1 ++ r2.1, r2.2)

/-- One-shot parse of a whole byte stream from a fresh parser. -/
def oneShotParse (stream : List Nat) : List WireMsg := (drainLoop ⟨stream, none⟩).1

/-- The four big-endian bytes of a 32-bit value. -/
def be32bytes (n : Nat) : List Nat :=
  [n / 16777216 % 256, n / 65536 % 256, n / 256 % 256, n % 256]

/-- Wire encoding of a message: 4-byte big-endian length, then for a
non-keep-alive the id byte and the payload. -/
def encodeWire : WireMsg → List Nat
  | WireMsg.keepAlive => be32bytes 0
  | WireMsg.message i payload => be32bytes (payload.length + 1) ++ i :: payload

/-- Well-formedness of a message for the wire: the id fits in one byte
and the framed length fits in 32 bits. -/
def wfWire : WireMsg → Prop
  | WireMsg.keepAlive => True
  | WireMsg.message i payload => i < 256 ∧ payload.length + 1 < 4294967296

instance : DecidablePred wfWire := by
  intro m
  cases m <;> simp only [wfWire] <;> infer_instance

/-! ## Peer connection state (src/peer_connection.py)

The in-flight request counter `_inflight`, the `active` flag and the
incremental parser state.  `MAX_INFLIGHT = 40`.  `send_request` refuses
when the cap is reached or the peer is inactive; a failing `_safe_send`
deactivates the peer.  `recv_message` appends the received bytes to the
buffer, parses at most one message, and updates `_inflight`: a piece
message (id 7) decrements it with floor 0, a choke (id 0) zeroes it. -/

def MAX_INFLIGHT : Int := 40

/-- The part of `PeerConnection` state relevant to in-flight accounting:
the counter, the `active` flag, and the framing-parser state. -/
structure PeerConnState where
  inflight : Int
  active : Bool
  parser : ParseState
deriving DecidableEq, Repr

/-- State right after a successful handshake (`connect` ends with
`self.active = True`; `_inflight` starts at 0, the buffer empty). -/
def initPeerConn : PeerConnState :=
  { inflight := 0, active := true, parser := ⟨[], none⟩ }

/-- `send_request`: returns false and changes nothing when
`_inflight >= MAX_INFLIGHT` or the peer is inactive; otherwise attempts
the send (`sendOk` is the outcome of `_safe_send`, which deactivates the
peer on failure) and increments `_inflight` on success. -/
def send_request (s : PeerConnState) (sendOk : Bool) : Bool × PeerConnState :=
  if MAX_INFLIGHT ≤ s.inflight ∨ s.active = false then (false, s)
  else if sendOk then (true, { s with inflight := s.inflight + 1 })
  else (false, { s with active := false })

/-- `recv_message`: returns `None` when inactive; otherwise appends the
received bytes to `_recv_buffer`, runs `_parse_one` once, and adjusts
`_inflight` for a parsed piece (id 7: decrement, floor 0) or choke
(id 0: reset to 0).  (The source raises `ConnectionError` before parsing
when the socket reports closure, which leaves `_inflight` unchanged and
is therefore not modelled as a separate case.) -/
def recv_message (s : PeerConnState) (received : List Nat) : Option WireMsg × PeerConnState :=
  if s.active = false then (none, s)
  else
    match parseOne ⟨s.parser.recvBuffer ++ received, s.parser.bytesNeeded⟩ with
    | (m, ps) =>
      let inflight1 :=
        match m with
        | some (WireMsg.message 7 _) => max 0 (s.inflight - 1)
        | some (WireMsg.message 0 _) => 0
        | _ => s.inflight
      (m, { s with parser := ps, inflight := inflight1 })

/-- One externally driven event on a peer connection: a `send_request`
attempt (with the `_safe_send` outcome) or a `recv_message` call with
the bytes obtained from the socket. -/
inductive PeerOp where
  | send (sendOk : Bool) : PeerOp
  | recv (received : List Nat) : PeerOp
deriving DecidableEq, Repr

/-- Apply one event to the connection state. -/
def stepPeer (s : PeerConnState) : PeerOp → PeerConnState
  | PeerOp.send ok => (send_request s ok).2
  | PeerOp.recv bytes => (recv_message s bytes).2

/-- Run a sequence of events from a state. -/
def runPeer (s : PeerConnState) : List PeerOp → PeerConnState
  | [] => s
  | op :: ops => runPeer (stepPeer s op) ops

/-! ## Rate sampling (src/peer_connection.py, `down_speed_bps` / `up_speed_bps`)

`_rates` is a list of `(timestamp, down_bytes, up_bytes)` samples;
`trim_samples` drops leading samples older than the 10-second window. -/

/-- One rate sample `(timestamp, down_bytes, up_bytes)`. -/
structure RateSample where
  t : ℚ
  down : Nat
  up : Nat
deriving DecidableEq, Repr

/-- `trim_samples`: pop leading samples while the oldest is older than
`window` seconds (`while self._rates and now - self._rates[0][0] > window`). -/
def trim_samples (now window : ℚ) : List RateSample → List RateSample
  | [] => []
  | r :: rest => if now - r.t > window then trim_samples now window rest else r :: rest

/-- `down_speed_bps`: 0 on no samples; after trimming, 0 when fewer than
two samples remain or the span from the oldest sample is under 2
seconds; otherwise downloaded bytes in the window divided by
`max(1e-6, span)`. -/
def down_speed_bps (now : ℚ) (rates : List RateSample) : ℚ :=
  if rates = [] then 0
  else
    let r := trim_samples now 10 rates
    if r.length < 2 then 0
    else
      if now - (r.headD ⟨0, 0, 0⟩).t < 2 then 0
      else ((r.map (fun x => x.down)).sum : ℚ) / max (1 / 1000000) (now - (r.headD ⟨0, 0, 0⟩).t)

/-- `up_speed_bps`: after trimming, 0 when no samples remain; otherwise
uploaded bytes in the window divided by `max(1e-6, span)` — with no
minimum-sample or minimum-span guard. -/
def up_speed_bps (now : ℚ) (rates : List RateSample) : ℚ :=
  let r := trim_samples now 10 rates
  if r = [] then 0
  else ((r.map (fun x => x.up)).sum : ℚ) / max (1 / 1000000) (now - (r.headD ⟨0, 0, 0⟩).t)

/-! ## Block (src/block.py) -/

/-- A block within a piece: `(piece_index, offset, length)` plus request
and receive flags and the request timestamp. -/
structure Block where
  pieceIndex : Nat
  offset : Nat
  length : Nat
  isRequested : Bool
  isReceived : Bool
  requestTime : Option ℚ
deriving DecidableEq, Repr

/-- A freshly constructed block (flags false, no timestamp). -/
def Block.mkNew (pieceIndex offset length : Nat) : Block :=
  { pieceIndex, offset, length, isRequested := false, isReceived := false, requestTime := none }

/-- `Block.set_requested`: mark as requested and stamp the time. -/
def Block.set_requested (b : Block) (now : ℚ) : Block :=
  { b with isRequested := true, requestTime := some now }

/-- `Block.reset`: clear both flags and the timestamp. -/
def Block.reset (b : Block) : Block :=
  { b with isRequested := false, isReceived := false, requestTime := none }

/-! ## Piece (src/piece.py)

The piece storage (`PieceStorage`, src/storage_manager.py) is the
memory-mapped `.part` file, modelled as a byte map `Nat → Nat`;
`write(piece_index, piece_offset, data)` assigns the slice starting at
`piece_index * piece_length + piece_offset`. -/

/-- The memory-mapped backing store, as a map from global byte offset to
byte value. -/
def Storage : Type := Nat → Nat

/-- `PieceStorage.write`: `mmap[start : start + len(data)] = data` with
`start = piece_index * piece_length + piece_offset`. -/
def storage_write (st : Storage) (pieceLength pieceIndex pieceOffset : Nat)
    (data : List Nat) : Storage :=
  fun a =>
    if pieceIndex * pieceLength + pieceOffset ≤ a ∧
        a < pieceIndex * pieceLength + pieceOffset + data.length then
      data.getD (a - (pieceIndex * pieceLength + pieceOffset)) 0
    else st a

/-- Piece state: index, expected SHA-1, length, completion flag, blocks,
the in-memory reassembly buffer and the `_blocks_received` counter. -/
structure Piece where
  index : Nat
  sha1 : List Nat
  length : Nat
  isComplete : Bool
  blocks : List Block
  buffer : List Nat
  blocksReceived : Nat
deriving DecidableEq, Repr

/-- Python slice assignment `buffer[offset : offset + data.length] = data`
(for equal-length slices, as in `Piece.block_received`). -/
def sliceSet (buffer : List Nat) (offset : Nat) (data : List Nat) : List Nat :=
  buffer.take offset ++ data ++ buffer.drop (offset + data.length)

/-- Mark the first block whose offset matches as received (the source
mutates the first matching block found by its linear scan). -/
def markFirstReceived (offset : Nat) : List Block → List Block
  | [] => []
  | b :: bs =>
    if b.offset = offset then { b with isReceived := true } :: bs
    else b :: markFirstReceived offset bs

/-- `Piece.next_block`: scan blocks in order, return the first that is
neither requested nor received, marking it requested (and stamping the
time); `None` when there is nothing to hand out.  Returns the block as
handed out together with the updated block list. -/
def nextFreeBlock (now : ℚ) : List Block → Option Block × List Block
  | [] => (none, [])
  | b :: bs =>
    if b.isRequested = false ∧ b.isReceived = false then
      (some (b.set_requested now), b.set_requested now :: bs)
    else
      match nextFreeBlock now bs with
      | (r, bs1) => (r, b :: bs1)

/-- `Piece.next_block` at the piece level. -/
def Piece.next_block (p : Piece) (now : ℚ) : Option Block × Piece :=
  match nextFreeBlock now p.blocks with
  | (r, bs) => (r, { p with blocks := bs })

/-- `Piece.block_received(offset, data)`: locate the block with matching
offset; return `None` (state untouched) if there is none, the data
length differs from the block length, or the block was already
received.  Otherwise write through the piece store, copy into the
reassembly buffer, mark received, bump the counter; when the counter
reaches the number of blocks, hash the buffer: on a match set
`is_complete`, release the buffer and return `True`; on a mismatch
reset every block, clear the counter and return `False`.  An accepted
block that does not complete the piece returns `False`.  `hash` is the
abstract SHA-1. -/
def Piece.block_received (hash : List Nat → List Nat) (pieceLength : Nat)
    (p : Piece) (st : Storage) (offset : Nat) (data : List Nat) :
    Option Bool × Piece × Storage :=
  match p.blocks.find? (fun b => b.offset = offset) with
  | none => (none, p, st)
  | some block =>
    if data.length ≠ block.length then (none, p, st)
    else if block.isReceived then (none, p, st)
    else
      let st1 := storage_write st pieceLength p.index offset data
      let buf1 := sliceSet p.buffer offset data
      let blocks1 := markFirstReceived offset p.blocks
      if p.blocksReceived + 1 = p.blocks.length then
        if hash buf1 = p.sha1 then
          (some true,
           { p with isComplete := true, blocks := blocks1, buffer := [],
                    blocksReceived := p.blocksReceived + 1 }, st1)
        else
          (some false,
           { p with isComplete := false, blocks := blocks1.map Block.reset, buffer := buf1,
                    blocksReceived := 0 }, st1)
      else
        (some false,
         { p with blocks := blocks1, buffer := buf1,
                  blocksReceived := p.blocksReceived + 1 }, st1)

/-! ## Piece manager (src/piece_manager.py, `next_request_rarest_first`)

Availability is the `Counter` mapping piece index to holder count
(`availability.get(index, 0)`), the peer bitmap a predicate on piece
indices.  `random.shuffle` is modelled by an arbitrary
permutation-producing function passed in as `shuffle`. -/

/-- Return the first block produced by the `next_block()` calls of the
pieces scanned in order (pieces that return nothing are left untouched,
so the scan is pure up to the block handed out). -/
def firstBlockOf (now : ℚ) : List Piece → Option Block
  | [] => none
  | p :: ps =>
    match (p.next_block now).1 with
    | some b => some b
    | none => firstBlockOf now ps

/-- A piece has a free block when some block is neither requested nor
received. -/
def hasFreeBlock (p : Piece) : Bool :=
  p.blocks.any (fun b => b.isRequested = false ∧ b.isReceived = false)

/-- The candidate pieces: not complete and present in the peer bitmap. -/
def rarestChoices (pieces : List Piece) (peerBitmap : Nat → Bool) : List Piece :=
  pieces.filter (fun p => p.isComplete = false ∧ peerBitmap p.index)

/-- Python `min` over the availability values of a nonempty list. -/
def minAvailOf (avail : Nat → Nat) (c : Piece) (cs : List Piece) : Nat :=
  (cs.map (fun p => avail p.index)).foldl min (avail c.index)

/-- `PieceManager.next_request_rarest_first(peer_bitmap)`: filter to
not-complete pieces the peer has; compute the minimum availability;
shuffle the pieces at the minimum and return the first block any of
them hands out; otherwise fall back to the first block any candidate
hands out; otherwise `None`. -/
def next_request_rarest_first (pieces : List Piece) (avail : Nat → Nat)
    (peerBitmap : Nat → Bool) (shuffle : List Piece → List Piece) (now : ℚ) :
    Option Block :=
  match rarestChoices pieces peerBitmap with
  | [] => none
  | c :: cs =>
    let minAvail := minAvailOf avail c cs
    let rarest := (c :: cs).filter (fun p => avail p.index = minAvail)
    match firstBlockOf now (shuffle rarest) with
    | some b => some b
    | none => firstBlockOf now (c :: cs)

/-! ## Peer manager retry backoff (src/peer_manager.py)

`_connect` on failure increments the peer's failure count `k` and sets
its next retry time to `now + 10 * 2^(k-1)` seconds
(`base_retry_interval = 10`); `retry_failed_peers` selects the peers
whose retry time has elapsed and whose count is below
`max_failures = 5`. -/

def max_failures : Nat := 5

def base_retry_interval : ℚ := 10

/-- Failure bookkeeping for one peer: the consecutive-failure count and
the scheduled next retry time. -/
structure RetryState where
  failCount : Nat
  nextRetry : Option ℚ
deriving DecidableEq, Repr

/-- The failure branch of `PeerManager._connect`: bump the count and
schedule the retry `base_retry_interval * 2^(count - 1)` seconds after
the failure time (with the new count). -/
def recordFailure (s : RetryState) (now : ℚ) : RetryState :=
  { failCount := s.failCount + 1,
    nextRetry := some (now + base_retry_interval * 2 ^ s.failCount) }

/-- State after a sequence of consecutive failures at the given times. -/
def afterFailures (times : List ℚ) : RetryState :=
  times.foldl recordFailure { failCount := 0, nextRetry := none }

/-- The selection in `retry_failed_peers`: a peer (represented by its
retry state) is retried when its scheduled time has elapsed and its
failure count is below `max_failures`. -/
def retryEligible (now : ℚ) (s : RetryState) : Bool :=
  match s.nextRetry with
  | none => false
  | some t => now ≥ t ∧ s.failCount < max_failures

/-! ## Bencode (src/bencode.py)

Decoded Python values are modelled by `BVal`.  The decoder surfaces a
byte string as text (`str`) when it is valid UTF-8, otherwise as raw
bytes; UTF-8 validity is abstracted by a predicate `u` on byte lists,
and a surfaced text value is represented by its UTF-8 bytes (`BVal.str`)
— faithful because UTF-8 decoding is injective.  Python dictionaries are
modelled as association lists in key order; since `dict` equality is
order-insensitive and the canonical encoder emits keys sorted, the
canonical representative keeps keys in strictly ascending byte order. -/

/-- A decoded bencode value: integer, text string (held as its UTF-8
bytes), raw byte string, list, or dictionary (association list). -/
inductive BVal where
  | int (n : Int) : BVal
  | str (b : List Nat) : BVal
  | bytes (b : List Nat) : BVal
  | list (l : List BVal) : BVal
  | dict (ps : List (BVal × BVal)) : BVal

mutual

/-- Decidable equality for `BVal` (the automatic derivation does not
handle the nested inductive). -/
def bvalDecEq : (a b : BVal) → Decidable (a = b)
  | BVal.int a, BVal.int b =>
    match decEq a b with
    | isTrue h => isTrue (by rw [h])
    | isFalse h => isFalse (fun hh => h (by cases hh; rfl))
  | BVal.int _, BVal.str _ => isFalse nofun
  | BVal.int _, BVal.bytes _ => isFalse nofun
  | BVal.int _, BVal.list _ => isFalse nofun
  | BVal.int _, BVal.dict _ => isFalse nofun
  | BVal.str _, BVal.int _ => isFalse nofun
  | BVal.str a, BVal.str b =>
    match decEq a b with
    | isTrue h => isTrue (by rw [h])
    | isFalse h => isFalse (fun hh => h (by cases hh; rfl))
  | BVal.str _, BVal.bytes _ => isFalse nofun
  | BVal.str _, BVal.list _ => isFalse nofun
  | BVal.str _, BVal.dict _ => isFalse nofun
  | BVal.bytes _, BVal.int _ => isFalse nofun
  | BVal.bytes _, BVal.str _ => isFalse nofun
  | BVal.bytes a, BVal.bytes b =>
    match decEq a b with
    | isTrue h => isTrue (by rw [h])
    | isFalse h => isFalse (fun hh => h (by cases hh; rfl))
  | BVal.bytes _, BVal.list _ => isFalse nofun
  | BVal.bytes _, BVal.dict _ => isFalse nofun
  | BVal.list _, BVal.int _ => isFalse nofun
  | BVal.list _, BVal.str _ => isFalse nofun
  | BVal.list _, BVal.bytes _ => isFalse nofun
  | BVal.list a, BVal.list b =>
    match bvalListDecEq a b with
    | isTrue h => isTrue (by rw [h])
    | isFalse h => isFalse (fun hh => h (by cases hh; rfl))
  | BVal.list _, BVal.dict _ => isFalse nofun
  | BVal.dict _, BVal.int _ => isFalse nofun
  | BVal.dict _, BVal.str _ => isFalse nofun
  | BVal.dict _, BVal.bytes _ => isFalse nofun
  | BVal.dict _, BVal.list _ => isFalse nofun
  | BVal.dict a, BVal.dict b =>
    match bvalPairsDecEq a b with
    | isTrue h => isTrue (by rw [h])
    | isFalse h => isFalse (fun hh => h (by cases hh; rfl))

def bvalListDecEq : (a b : List BVal) → Decidable (a = b)
  | [], [] => isTrue rfl
  | [], _ :: _ => isFalse nofun
  | _ :: _, [] => isFalse nofun
  | x :: xs, y :: ys =>
    match bvalDecEq x y with
    | isFalse h => isFalse (fun hh => h (by cases hh; rfl))
    | isTrue h1 =>
      match bvalListDecEq xs ys with
      | isTrue h2 => isTrue (by rw [h1, h2])
      | isFalse h => isFalse (fun hh => h (by cases hh; rfl))

def bvalPairsDecEq : (a b : List (BVal × BVal)) → Decidable (a = b)
  | [], [] => isTrue rfl
  | [], _ :: _ => isFalse nofun
  | _ :: _, [] => isFalse nofun
  | (k1, v1) :: xs, (k2, v2) :: ys =>
    match bvalDecEq k1 k2 with
    | isFalse h => isFalse (fun hh => h (by cases hh; rfl))
    | isTrue h1 =>
      match bvalDecEq v1 v2 with
      | isFalse h => isFalse (fun hh => h (by cases hh; rfl))
      | isTrue h2 =>
        match bvalPairsDecEq xs ys with
        | isTrue h3 => isTrue (by rw [h1, h2, h3])
        | isFalse h => isFalse (fun hh => h (by cases hh; rfl))

end

instance : DecidableEq BVal := bvalDecEq

/-- ASCII decimal digit test (`bytes.isdigit` on one byte). -/
def isDigitByte (c : Nat) : Bool := 48 ≤ c ∧ c ≤ 57

/-- Decimal ASCII digit extraction, most significant first; `fuel`
bounds the digit count (any `fuel ≥ m` is enough). -/
def natDigitsAux : Nat → Nat → List Nat
  | 0, _ => []
  | fuel + 1, m => if m = 0 then [] else natDigitsAux fuel (m / 10) ++ [48 + m % 10]

/-- Decimal ASCII rendering of a natural number (Python `str(n)` /
`b"%d"`). -/
def natDigits (m : Nat) : List Nat :=
  if m = 0 then [48] else natDigitsAux m m

/-- Decimal ASCII rendering of an integer, with a leading `-` (0x2D)
when negative. -/
def intDigits (n : Int) : List Nat :=
  if n < 0 then 45 :: natDigits (-n).toNat else natDigits n.toNat

/-- Strict lexicographic byte order on byte strings. -/
def bytesLt : List Nat → List Nat → Bool
  | [], [] => false
  | [], _ :: _ => true
  | _ :: _, [] => false
  | a :: as, b :: bs => a < b ∨ (a = b ∧ bytesLt as bs)

/-- The key bytes of a dictionary key, when it is a byte string (text or
raw). -/
def keyBytes : BVal → Option (List Nat)
  | BVal.str b => some b
  | BVal.bytes b => some b
  | _ => none

/-- Every later key is strictly greater: keys pairwise in ascending byte
order (for sorted keys this is equivalent to adjacent ordering, and it
directly gives key distinctness). -/
def keysSorted : List (List Nat) → Bool
  | [] => true
  | k :: ks => ks.all (fun k2 => bytesLt k k2) && keysSorted ks

mutual

/-- Canonical-form predicate: text/raw tags agree with UTF-8 validity
(`u`), dictionary keys are byte strings in strictly ascending byte
order, recursively. -/
def canon (u : List Nat → Bool) : BVal → Bool
  | BVal.int _ => true
  | BVal.str b => u b
  | BVal.bytes b => !u b
  | BVal.list l => canonList u l
  | BVal.dict ps =>
    canonPairs u ps && keysSorted (ps.filterMap (fun e => keyBytes e.1))

def canonList (u : List Nat → Bool) : List BVal → Bool
  | [] => true
  | v :: vs => canon u v && canonList u vs

def canonPairs (u : List Nat → Bool) : List (BVal × BVal) → Bool
  | [] => true
  | (k, v) :: rest =>
    (keyBytes k).isSome && canon u k && canon u v && canonPairs u rest

end

mutual

/-- Canonical bencode encoding.  Modelled from the spec: the source
encodes via the external `bencodepy` library; §4.1 fixes the format —
`i<digits>e`, `<len>:<bytes>`, `l…e`, `d…e` with keys in lexicographic
byte order (the canonical representative already holds them sorted). -/
def bencodeEncode : BVal → List Nat
  | BVal.int n => 105 :: intDigits n ++ [101]
  | BVal.str b => natDigits b.length ++ 58 :: b
  | BVal.bytes b => natDigits b.length ++ 58 :: b
  | BVal.list l => 108 :: bencodeEncodeList l ++ [101]
  | BVal.dict ps => 100 :: bencodeEncodePairs ps ++ [101]

def bencodeEncodeList : List BVal → List Nat
  | [] => []
  | v :: vs => bencodeEncode v ++ bencodeEncodeList vs

def bencodeEncodePairs : List (BVal × BVal) → List Nat
  | [] => []
  | (k, v) :: rest => bencodeEncode k ++ bencodeEncode v ++ bencodeEncodePairs rest

end

mutual

/-- Size measure used as a fuel bound for the decoder. -/
def bsize : BVal → Nat
  | BVal.int _ => 1
  | BVal.str _ => 1
  | BVal.bytes _ => 1
  | BVal.list l => 1 + bsizeList l
  | BVal.dict ps => 1 + bsizePairs ps

def bsizeList : List BVal → Nat
  | [] => 0
  | v :: vs => 1 + bsize v + bsizeList vs

def bsizePairs : List (BVal × BVal) → Nat
  | [] => 0
  | (k, v) :: rest => 1 + bsize k + bsize v + bsizePairs rest

end

/-- Python `data.index(byte, i)` relative to the remaining input: the
index of the first occurrence, `none` when absent (which raises). -/
def findByte (t : Nat) : List Nat → Option Nat
  | [] => none
  | a :: rest => if a = t then some 0 else (findByte t rest).map (fun i => i + 1)

/-- Python slice `rem[a:b]` on the remaining input. -/
def pySlice (rem : List Nat) (a b : Nat) : List Nat := (rem.drop a).take (b - a)

/-- Python `int()` on ASCII digits (no sign): `None` models the
`ValueError` on empty or non-digit input. -/
def pyParseNat (s : List Nat) : Option Nat :=
  if s ≠ [] ∧ s.all isDigitByte then
    some (s.foldl (fun a d => 10 * a + (d - 48)) 0)
  else none

/-- Python `int()` on ASCII, allowing one leading `-` (0x2D). -/
def pyParseInt (s : List Nat) : Option Int :=
  if s.headD 0 = 45 then (pyParseNat (s.drop 1)).map (fun n => -(n : Int))
  else (pyParseNat s).map (fun n => (n : Int))

/-- Python `dct[key] = value`: replace the value of an existing key in
place, otherwise append (insertion order). -/
def dictInsert (l : List (BVal × BVal)) (k v : BVal) : List (BVal × BVal) :=
  if l.any (fun e => e.1 = k) then
    l.map (fun e => if e.1 = k then (e.1, v) else e)
  else l ++ [(k, v)]

mutual

/-- `Bencode.bencode_decode`'s inner `decode(index)`, phrased on the
remaining input `rem = data[index:]` and returning the decoded value
with the number of bytes consumed (Python's returned index minus
`index`; for a declared string length exceeding the input it counts
past the end, exactly as the source's `end` index does).  `fuel`
bounds the recursion depth; `none` on exhaustion (never reached from
`bencode_decode`, whose fuel exceeds any possible nesting depth).
Branches: `i<int>e`; `<digits>:<bytes>` surfaced as text iff `u` holds;
`l…e`; `d…e`; anything else is the `ValueError` case (`none`). -/
def decodeVal (u : List Nat → Bool) : Nat → List Nat → Option (BVal × Nat)
  | 0, _ => none
  | _ + 1, [] => none
  | fuel + 1, ch :: rest =>
    if ch = 105 then
      match findByte 101 (ch :: rest) with
      | none => none
      | some e =>
        match pyParseInt (pySlice (ch :: rest) 1 e) with
        | none => none
        | some n => some (BVal.int n, e + 1)
    else if isDigitByte ch then
      match findByte 58 (ch :: rest) with
      | none => none
      | some colon =>
        match pyParseInt (pySlice (ch :: rest) 0 colon) with
        | none => none
        | some n =>
          let raw := pySlice (ch :: rest) (colon + 1) (colon + 1 + n.toNat)
          some (if u raw then BVal.str raw else BVal.bytes raw, colon + 1 + n.toNat)
    else if ch = 108 then
      match decodeItems u fuel rest with
      | none => none
      | some (vs, c) => some (BVal.list vs, c + 1)
    else if ch = 100 then
      match decodeEntries u fuel rest [] with
      | none => none
      | some (ps, c) => some (BVal.dict ps, c + 1)
    else none

/-- The `l…e` loop: decode items until the terminating `e`; the consumed
count includes the terminator. -/
def decodeItems (u : List Nat → Bool) : Nat → List Nat → Option (List BVal × Nat)
  | 0, _ => none
  | fuel + 1, rem =>
    if rem.head? = some 101 then some ([], 1)
    else
      match decodeVal u fuel rem with
      | none => none
      | some (v, c) =>
        match decodeItems u fuel (rem.drop c) with
        | none => none
        | some (vs, c2) => some (v :: vs, c + c2)

/-- The `d…e` loop: decode key and value pairs until the terminating
`e`, inserting into the accumulated dictionary. -/
def decodeEntries (u : List Nat → Bool) :
    Nat → List Nat → List (BVal × BVal) → Option (List (BVal × BVal) × Nat)
  | 0, _, _ => none
  | fuel + 1, rem, acc =>
    if rem.head? = some 101 then some (acc, 1)
    else
      match decodeVal u fuel rem with
      | none => none
      | some (k, ck) =>
        match decodeVal u fuel (rem.drop ck) with
        | none => none
        | some (v, cv) =>
          match decodeEntries u fuel ((rem.drop ck).drop cv) (dictInsert acc k v) with
          | none => none
          | some (ps, c2) => some (ps, ck + cv + c2)

end

/-- `Bencode.bencode_decode(data)`: decode one value from the start and
require that it consumes the input exactly (`final_index != len(data)`
is the "Extra data" error); `none` models a raised `ValueError`. -/
def bencode_decode (u : List Nat → Bool) (data : List Nat) : Option BVal :=
  match decodeVal u (data.length + 1) data with
  | none => none
  | some (v, c) => if c = data.length then some v else none

/-! ## HTTP tracker client (src/http_tracker_client.py)

`src/http_tracker_client.py` is the HTTP tracker client actually used
(imported by `tracker_manager.py` and covered by
`tests/unit/test_http_tracker_client.py`) but its source is not present
under `src/`; only the older `tracker_client.py` is, whose `get_peers`
shares the compact-peer parsing but returns no interval.  The client is
therefore modelled from the spec (§4.8). -/

/-- Dotted-decimal rendering of four IPv4 bytes
(`".".join(str(b) for b in ...)`). -/
def ipString (a b c d : Nat) : String :=
  String.intercalate "." [toString a, toString b, toString c, toString d]

/-- Compact peers parsing: one peer per 6 bytes — 4-byte IPv4 address,
2-byte big-endian port (`struct.unpack(">H", ...)`).  Matches both the
spec (§4.8) and the parsing loop of `tracker_client.py`. -/
def parseCompactPeers : List Nat → List (String × Nat)
  | b0 :: b1 :: b2 :: b3 :: p0 :: p1 :: rest =>
    (ipString b0 b1 b2 b3, 256 * p0 + p1) :: parseCompactPeers rest
  | _ => []

/-- Modelled from the spec: `HTTPTrackerClient.get_peers` of the missing
`src/http_tracker_client.py` — on a non-200 HTTP status fail with a
tracker error; otherwise parse the bencoded response, decode the
compact `peers` value and return it together with the response's
`interval` field.  The response is taken already bencode-decoded to its
`interval` and `peers` fields. -/
def http_get_peers (status : Nat) (interval : Int) (peersBinary : List Nat) :
    Except String (List (String × Nat) × Int) :=
  if status ≠ 200 then Except.error "tracker error"
  else Except.ok (parseCompactPeers peersBinary, interval)

/-! ## Tracker manager (src/tracker_manager.py, `get_all_peers`)

Each tracker announce either succeeds with a peer list and an interval
or fails (the exception taints only that entry); the results are
aggregated in completion order.  Peers are carried as `(ip, port)`. -/

/-- The inner dedup loop of `get_all_peers`: append each peer whose
`(ip, port)` is not yet in `seen`. -/
def addNewPeers (acc seen : List (String × Nat)) :
    List (String × Nat) → List (String × Nat) × List (String × Nat)
  | [] => (acc, seen)
  | p :: ps =>
    if seen.contains p then addNewPeers acc seen ps
    else addNewPeers (acc ++ [p]) (p :: seen) ps

/-- The body of `get_all_peers`'s result loop: starting from
`all_peers = []`, `seen = {}` and `min_interval = 1800`, each successful
result lowers `min_interval` by `min` and appends the peers whose
`(ip, port)` was not seen before; failures change nothing. -/
def getAllPeersLoop (acc : List (String × Nat)) (seen : List (String × Nat))
    (minInterval : Int) :
    List (Option (List (String × Nat) × Int)) → List (String × Nat) × Int
  | [] => (acc, minInterval)
  | none :: results => getAllPeersLoop acc seen minInterval results
  | some (peers, interval) :: results =>
    match addNewPeers acc seen peers with
    | (acc1, seen1) => getAllPeersLoop acc1 seen1 (min minInterval interval) results

/-- `TrackerManager.get_all_peers`: aggregate the per-tracker results
(in completion order), deduplicating peers by `(ip, port)` and taking
the running minimum of the returned intervals, starting from the
fallback 1800. -/
def get_all_peers (results : List (Option (List (String × Nat) × Int))) :
    List (String × Nat) × Int :=
  getAllPeersLoop [] [] 1800 results

/-! ## Concrete scenario data (spec §8, end-to-end scenario 5) -/

/-- A fresh one-block piece with the given index, as constructed by
`Piece.__init__` for a 16384-byte piece with 16384-byte blocks. -/
def examplePiece (i : Nat) : Piece :=
  { index := i, sha1 := [], length := 16384, isComplete := false,
    blocks := [Block.mkNew i 0 16384], buffer := List.replicate 16384 0,
    blocksReceived := 0 }

/-- Three pieces, indices 0, 1, 2. -/
def examplePieces : List Piece := [examplePiece 0, examplePiece 1, examplePiece 2]

/-- Availabilities `{0: 3, 1: 2, 2: 1}`. -/
def exampleAvail : Nat → Nat :=
  fun i => if i = 0 then 3 else if i = 1 then 2 else if i = 2 then 1 else 0

/-! # Theorems -/

/-! ## Peer retry backoff (C7) -/

theorem foldl_recordFailure (times : List ℚ) :
    ∀ (init : RetryState) (h : times ≠ []),
      times.foldl recordFailure init =
        { failCount := init.failCount + times.length,
          nextRetry := some (times.getLast h +
            base_retry_interval * 2 ^ (init.failCount + times.length - 1)) } := by
  induction times with
  | nil => intro _ h; exact absurd rfl h
  | cons t rest ih =>
    intro init h
    cases rest with
    | nil => simp [recordFailure]
    | cons t2 rest2 =>
      have hne : t2 :: rest2 ≠ [] := by simp
      rw [List.foldl_cons, ih (recordFailure init t) hne]
      simp [recordFailure, List.getLast_cons hne]
      constructor
      · omega
      · omega

/-- C7: after `k` consecutive failed connection attempts the scheduled
retry time is the time of the `k`-th failure plus `10 * 2^(k-1)`
seconds, and a peer whose failure count has reached `max_failures = 5`
is never selected by the retry loop. -/
theorem retry_backoff_spec (times : List ℚ) (h : times ≠ []) :
    (afterFailures times).failCount = times.length ∧
    (afterFailures times).nextRetry =
      some (times.getLast h + 10 * 2 ^ (times.length - 1)) ∧
    (∀ (now : ℚ) (s : RetryState), max_failures ≤ s.failCount →
      retryEligible now s = false) := by
  refine ⟨?_, ?_, ?_⟩
  · rw [afterFailures, foldl_recordFailure times _ h]
    simp
  · rw [afterFailures, foldl_recordFailure times _ h]
    simp [base_retry_interval]
  · intro now s hs
    unfold retryEligible
    cases hnr : s.nextRetry with
    | none => rfl
    | some t =>
      simp only [decide_eq_false_iff_not]
      intro hc
      have h2 := hc.2
      simp only [max_failures] at hs h2
      omega

theorem retry_backoff_spec_witness :
    ([(3 : ℚ), 50] ≠ [] ∧
      (afterFailures [(3 : ℚ), 50]).failCount = 2 ∧
      (afterFailures [(3 : ℚ), 50]).nextRetry = some 70 ∧
      retryEligible 1000 { failCount := 5, nextRetry := some 0 } = false) := by
  have hne : [(3 : ℚ), 50] ≠ [] := by simp
  obtain ⟨h1, h2, h3⟩ := retry_backoff_spec [(3 : ℚ), 50] hne
  refine ⟨hne, h1, ?_, h3 1000 _ (by norm_num [max_failures])⟩
  rw [h2]
  norm_num

/-! ## Rate reporting (C9)

The claim states the two-sample / 2-second guard for **both** speeds,
but the source applies it only to `down_speed_bps`; `up_speed_bps`
divides by `max(1e-6, span)` whenever any sample is retained (the spec's
§9 design notes record this asymmetry as preserved). -/

/-- C9 counterexample: with a single retained sample (fewer than two,
span 0 < 2 s), `up_speed_bps` returns a non-zero value, so the claim's
"0 is returned whenever fewer than two samples are retained or that
span is under 2 seconds" fails for the upload speed. -/
theorem up_speed_single_sample_nonzero :
    (trim_samples 0 10 [⟨0, 0, 100⟩]).length < 2 ∧
      up_speed_bps 0 [⟨0, 0, 100⟩] = 100000000 := by
  constructor
  · norm_num [trim_samples]
  · norm_num [up_speed_bps, trim_samples]

/-- C9 as amended: `down_speed_bps` returns 0 on no samples, fewer than
two retained samples, or a span under 2 seconds, and otherwise the
downloaded bytes in the retained window divided by the span from the
oldest retained sample; `up_speed_bps` returns 0 only when no samples
are retained, and otherwise the uploaded bytes divided by
`max(1e-6, span)` — with no minimum-sample or minimum-span guard. -/
theorem speed_bps_spec (now : ℚ) (rates : List RateSample) :
    (rates = [] → down_speed_bps now rates = 0) ∧
    ((trim_samples now 10 rates).length < 2 → down_speed_bps now rates = 0) ∧
    (trim_samples now 10 rates = [] → up_speed_bps now rates = 0) ∧
    (∀ r0 rs, trim_samples now 10 rates = r0 :: rs →
      (now - r0.t < 2 → down_speed_bps now rates = 0) ∧
      (rs ≠ [] → 2 ≤ now - r0.t →
        down_speed_bps now rates =
          (((r0 :: rs).map (fun x => x.down)).sum : ℚ) / (now - r0.t)) ∧
      up_speed_bps now rates =
        (((r0 :: rs).map (fun x => x.up)).sum : ℚ) / max (1 / 1000000) (now - r0.t)) := by
  refine ⟨?_, ?_, ?_, ?_⟩
  · intro h
    simp [down_speed_bps, h]
  · intro h
    unfold down_speed_bps
    split
    · rfl
    · simp only [h, if_true]
  · intro h
    unfold up_speed_bps
    simp [h]
  · intro r0 rs htr
    have hne : rates ≠ [] := by
      intro hr
      rw [hr] at htr
      simp [trim_samples] at htr
    refine ⟨?_, ?_, ?_⟩
    · intro hspan
      unfold down_speed_bps
      rw [if_neg hne]
      simp only [htr, List.headD_cons]
      by_cases hlen : (r0 :: rs).length < 2
      · rw [if_pos hlen]
      · rw [if_neg hlen, if_pos hspan]
    · intro hrs hspan
      have hlen : ¬((r0 :: rs).length < 2) := by
        rcases rs with _ | ⟨a, b⟩
        · exact absurd rfl hrs
        · simp only [List.length_cons]
          omega
      unfold down_speed_bps
      rw [if_neg hne]
      simp only [htr, List.headD_cons]
      rw [if_neg hlen, if_neg (by linarith : ¬(now - r0.t < 2))]
      rw [max_eq_right (by linarith : (1 : ℚ) / 1000000 ≤ now - r0.t)]
    · unfold up_speed_bps
      simp only [htr, List.headD_cons]
      rw [if_neg (by simp : ¬(r0 :: rs = []))]

theorem speed_bps_spec_witness :
    (trim_samples 10 10 [⟨0, 5, 7⟩, ⟨9, 3, 4⟩] = ⟨0, 5, 7⟩ :: [⟨9, 3, 4⟩] ∧
      down_speed_bps 10 [⟨0, 5, 7⟩, ⟨9, 3, 4⟩] = 8 / 10 ∧
      up_speed_bps 10 [⟨0, 5, 7⟩, ⟨9, 3, 4⟩] = 11 / 10) := by
  have htr : trim_samples 10 10 [(⟨0, 5, 7⟩ : RateSample), ⟨9, 3, 4⟩] =
      (⟨0, 5, 7⟩ : RateSample) :: [⟨9, 3, 4⟩] := by
    norm_num [trim_samples]
  obtain ⟨-, -, -, h4⟩ := speed_bps_spec 10 [⟨0, 5, 7⟩, ⟨9, 3, 4⟩]
  obtain ⟨-, hdown, hup⟩ := h4 ⟨0, 5, 7⟩ [⟨9, 3, 4⟩] htr
  refine ⟨htr, ?_, ?_⟩
  · rw [hdown (by simp) (by norm_num)]
    norm_num
  · rw [hup]
    norm_num

/-! ## Tracker manager aggregation (C8)

The claim reads the returned interval as "the minimum interval returned
by any successful tracker, falling back to 1800 when no tracker returns
an interval", but the loop starts its running minimum at 1800, so 1800
also acts as a cap: a single successful tracker returning 3600 yields
1800, not 3600. -/

/-- C8 counterexample: one successful tracker returning interval 3600 —
the claim requires `get_all_peers` to return 3600 (the minimum over
successful trackers), but the code returns `min 1800 3600 = 1800`. -/
theorem get_all_peers_interval_capped :
    (get_all_peers [some ([], 3600)]).2 = 1800 ∧ (1800 : Int) ≠ 3600 := by
  constructor
  · rfl
  · decide

theorem addNewPeers_nodup (ps : List (String × Nat)) :
    ∀ acc seen, acc.Nodup → (∀ p ∈ acc, p ∈ seen) →
      (addNewPeers acc seen ps).1.Nodup ∧
        ∀ p ∈ (addNewPeers acc seen ps).1, p ∈ (addNewPeers acc seen ps).2 := by
  induction ps with
  | nil => intro acc seen h1 h2; exact ⟨h1, h2⟩
  | cons p ps ih =>
    intro acc seen h1 h2
    unfold addNewPeers
    by_cases hp : seen.contains p
    · rw [if_pos hp]
      exact ih acc seen h1 h2
    · rw [if_neg hp]
      apply ih
      · rw [List.nodup_append]
        refine ⟨h1, List.nodup_singleton p, ?_⟩
        intro a ha hap
        rw [List.mem_singleton] at hap
        subst hap
        exact hp (List.contains_eq_any_beq seen a ▸ by
          simp only [List.any_eq_true]
          exact ⟨a, h2 a ha, by simp⟩)
      · intro q hq
        rw [List.mem_append] at hq
        rcases hq with hq | hq
        · exact List.mem_cons_of_mem p (h2 q hq)
        · rw [List.mem_singleton] at hq
          subst hq
          exact List.mem_cons_self q seen

theorem getAllPeersLoop_spec (results : List (Option (List (String × Nat) × Int))) :
    ∀ acc seen m, acc.Nodup → (∀ p ∈ acc, p ∈ seen) →
      (getAllPeersLoop acc seen m results).1.Nodup ∧
        (getAllPeersLoop acc seen m results).2 =
          ((results.filterMap id).map (fun r => r.2)).foldl min m := by
  induction results with
  | nil => intro acc seen m h1 _; exact ⟨h1, rfl⟩
  | cons r results ih =>
    intro acc seen m h1 h2
    cases r with
    | none =>
      simpa only [getAllPeersLoop, List.filterMap_cons_none] using ih acc seen m h1 h2
    | some pr =>
      obtain ⟨peers, interval⟩ := pr
      have hadd := addNewPeers_nodup peers acc seen h1 h2
      simp only [getAllPeersLoop, List.filterMap_cons_some, List.map_cons, List.foldl_cons]
      exact ih _ _ _ hadd.1 hadd.2

/-- C8 as amended: `get_all_peers` returns a peer list in which no two
peers share the same `(ip, port)` pair, together with the running
minimum — seeded at 1800 — of the intervals returned by the successful
trackers (so the result is `min 1800 (min over successful intervals)`:
1800 both when no tracker returns an interval and as a cap when every
returned interval exceeds it). -/
theorem get_all_peers_spec (results : List (Option (List (String × Nat) × Int))) :
    (get_all_peers results).1.Nodup ∧
      (get_all_peers results).2 =
        ((results.filterMap id).map (fun r => r.2)).foldl min 1800 := by
  exact getAllPeersLoop_spec results [] [] 1800 List.nodup_nil (by simp)

/-! ## HTTP tracker client (C6) -/

theorem parseCompactPeers_groups (k : Nat) :
    ∀ body : List Nat, body.length = 6 * k →
      (parseCompactPeers body).length = k ∧
        ∀ j, j < k →
          (parseCompactPeers body).getD j ("", 0) =
            (ipString (body.getD (6 * j) 0) (body.getD (6 * j + 1) 0)
               (body.getD (6 * j + 2) 0) (body.getD (6 * j + 3) 0),
             256 * body.getD (6 * j + 4) 0 + body.getD (6 * j + 5) 0) := by
  induction k with
  | zero =>
    intro body hlen
    have : body = [] := List.eq_nil_of_length_eq_zero (by omega)
    subst this
    exact ⟨rfl, fun j hj => absurd hj (by omega)⟩
  | succ k ih =>
    intro body hlen
    match body, hlen with
    | b0 :: b1 :: b2 :: b3 :: b4 :: b5 :: rest, hlen =>
      have hrest : rest.length = 6 * k := by
        simp only [List.length_cons] at hlen
        omega
      obtain ⟨ihlen, ihget⟩ := ih rest hrest
      constructor
      · simp only [parseCompactPeers, List.length_cons, ihlen]
      · intro j hj
        cases j with
        | zero => rfl
        | succ j =>
          have h6 : ∀ i : Nat,
              (b0 :: b1 :: b2 :: b3 :: b4 :: b5 :: rest).getD (6 * (j + 1) + i) 0 =
                rest.getD (6 * j + i) 0 := by
            intro i
            have : 6 * (j + 1) + i = (6 * j + i) + 6 := by ring
            rw [this]
            rfl
          simp only [parseCompactPeers, List.getD_cons_succ, h6]
          exact ihget j (by omega)

/-- C6 (spec-modelled): on a non-200 status `get_peers` fails with a
tracker error; on success it returns `(peers, interval)` where
`interval` is the response's interval field and the compact `peers`
bytes decode one peer per 6 bytes — dotted-quad IPv4 from the first
four bytes, big-endian port from the last two.  The concrete compact
body `7f 00 00 01 1a e1` yields `("127.0.0.1", 6881)` (spec §8
scenario 6). -/
theorem http_get_peers_spec :
    (∀ status interval body, status ≠ 200 →
        http_get_peers status interval body = Except.error "tracker error") ∧
    (∀ interval body,
        http_get_peers 200 interval body = Except.ok (parseCompactPeers body, interval)) ∧
    (∀ (body : List Nat) (k : Nat), body.length = 6 * k →
        (parseCompactPeers body).length = k ∧
          ∀ j, j < k →
            (parseCompactPeers body).getD j ("", 0) =
              (ipString (body.getD (6 * j) 0) (body.getD (6 * j + 1) 0)
                 (body.getD (6 * j + 2) 0) (body.getD (6 * j + 3) 0),
               256 * body.getD (6 * j + 4) 0 + body.getD (6 * j + 5) 0)) ∧
    parseCompactPeers [127, 0, 0, 1, 26, 225] = [("127.0.0.1", 6881)] := by
  refine ⟨?_, ?_, ?_, ?_⟩
  · intro status interval body h
    simp [http_get_peers, h]
  · intro interval body
    simp [http_get_peers]
  · intro body k hlen
    exact parseCompactPeers_groups k body hlen
  · rfl

theorem http_get_peers_spec_witness :
    http_get_peers 500 900 [] = Except.error "tracker error" ∧
      http_get_peers 200 900 [127, 0, 0, 1, 26, 225] =
        Except.ok ([("127.0.0.1", 6881)], 900) ∧
      (parseCompactPeers [127, 0, 0, 1, 26, 225]).length = 1 := by
  obtain ⟨h1, h2, h3, h4⟩ := http_get_peers_spec
  refine ⟨h1 500 900 [] (by decide), ?_, (h3 [127, 0, 0, 1, 26, 225] 1 rfl).1⟩
  rw [h2 900 [127, 0, 0, 1, 26, 225], h4]

/-! ## In-flight cap (C2) -/

theorem stepPeer_inflight_bounds (s : PeerConnState) (op : PeerOp)
    (h0 : 0 ≤ s.inflight) (h40 : s.inflight ≤ MAX_INFLIGHT) :
    0 ≤ (stepPeer s op).inflight ∧ (stepPeer s op).inflight ≤ MAX_INFLIGHT := by
  cases op with
  | send ok =>
    simp only [stepPeer, send_request]
    split
    · exact ⟨h0, h40⟩
    · rename_i hc
      push_neg at hc
      split
      · simp only [MAX_INFLIGHT] at hc ⊢
        omega
      · exact ⟨h0, h40⟩
  | recv bytes =>
    simp only [stepPeer, recv_message]
    split
    · exact ⟨h0, h40⟩
    · simp only
      split
      · simp only [MAX_INFLIGHT] at h40 ⊢
        omega
      · simp only [MAX_INFLIGHT]
        omega
      · exact ⟨h0, h40⟩

theorem runPeer_inflight_bounds (ops : List PeerOp) :
    ∀ s : PeerConnState, 0 ≤ s.inflight → s.inflight ≤ MAX_INFLIGHT →
      0 ≤ (runPeer s ops).inflight ∧ (runPeer s ops).inflight ≤ MAX_INFLIGHT := by
  induction ops with
  | nil => intro s h0 h40; exact ⟨h0, h40⟩
  | cons op ops ih =>
    intro s h0 h40
    obtain ⟨g0, g40⟩ := stepPeer_inflight_bounds s op h0 h40
    exact ih (stepPeer s op) g0 g40

/-- C2: from the post-handshake state, any sequence of `send_request`
and `recv_message` events keeps `0 ≤ _inflight ≤ MAX_INFLIGHT = 40`;
a `send_request` at the cap or on an inactive peer returns false and
leaves the state unchanged; a successful `send_request` increments the
counter by 1; a parsed piece message (id 7) decrements it with floor 0;
a parsed choke (id 0) resets it to 0. -/
theorem inflight_cap_spec :
    (∀ ops : List PeerOp, 0 ≤ (runPeer initPeerConn ops).inflight ∧
        (runPeer initPeerConn ops).inflight ≤ MAX_INFLIGHT) ∧
    (∀ (s : PeerConnState) (ok : Bool),
        MAX_INFLIGHT ≤ s.inflight ∨ s.active = false → send_request s ok = (false, s)) ∧
    (∀ (s : PeerConnState) (ok : Bool) (r : PeerConnState),
        send_request s ok = (true, r) → r.inflight = s.inflight + 1) ∧
    (∀ (s : PeerConnState) (bytes : List Nat) (payload : List Nat) (r : PeerConnState),
        recv_message s bytes = (some (WireMsg.message 7 payload), r) →
          r.inflight = max 0 (s.inflight - 1)) ∧
    (∀ (s : PeerConnState) (bytes : List Nat) (payload : List Nat) (r : PeerConnState),
        recv_message s bytes = (some (WireMsg.message 0 payload), r) →
          r.inflight = 0) := by
  refine ⟨?_, ?_, ?_, ?_, ?_⟩
  · intro ops
    exact runPeer_inflight_bounds ops initPeerConn (by simp [initPeerConn])
      (by simp [initPeerConn, MAX_INFLIGHT])
  · intro s ok h
    unfold send_request
    rw [if_pos h]
  · intro s ok r h
    unfold send_request at h
    split at h
    · exact absurd (congrArg Prod.fst h) (by simp)
    · split at h
      · have := congrArg Prod.snd h
        simp at this
        rw [← this]
      · exact absurd (congrArg Prod.fst h) (by simp)
  · intro s bytes payload r h
    unfold recv_message at h
    split at h
    · exact absurd (congrArg Prod.fst h) (by simp)
    · simp only at h
      have hm := congrArg Prod.fst h
      simp only at hm
      rw [hm] at h
      have := congrArg Prod.snd h
      simp only at this
      rw [← this]
  · intro s bytes payload r h
    unfold recv_message at h
    split at h
    · exact absurd (congrArg Prod.fst h) (by simp)
    · simp only at h
      have hm := congrArg Prod.fst h
      simp only at hm
      rw [hm] at h
      have := congrArg Prod.snd h
      simp only at this
      rw [← this]

theorem inflight_cap_spec_witness :
    (0 ≤ (runPeer initPeerConn [PeerOp.send true, PeerOp.send true]).inflight ∧
        (runPeer initPeerConn [PeerOp.send true, PeerOp.send true]).inflight ≤ MAX_INFLIGHT) ∧
      send_request { inflight := 40, active := true, parser := ⟨[], none⟩ } true =
        (false, { inflight := 40, active := true, parser := ⟨[], none⟩ }) ∧
      (recv_message { inflight := 3, active := true, parser := ⟨[], none⟩ }
          [0, 0, 0, 2, 7, 9]).2.inflight = 2 := by
  refine ⟨(inflight_cap_spec).1 [PeerOp.send true, PeerOp.send true],
    (inflight_cap_spec).2.1 _ true (Or.inl (by decide)), ?_⟩
  have h := (inflight_cap_spec).2.2.2.1
    { inflight := 3, active := true, parser := ⟨[], none⟩ } [0, 0, 0, 2, 7, 9] [9]
    (recv_message { inflight := 3, active := true, parser := ⟨[], none⟩ } [0, 0, 0, 2, 7, 9]).2
    (by decide)
  rw [h]
  decide

/-! ## Piece block reception (C1, C10) -/

theorem markFirstReceived_decomp (offset : Nat) :
    ∀ (blocks : List Block) (b : Block),
      blocks.find? (fun x => x.offset = offset) = some b →
      ∃ l1 l2, blocks = l1 ++ b :: l2 ∧ b.offset = offset ∧
        (∀ x ∈ l1, x.offset ≠ offset) ∧
        markFirstReceived offset blocks = l1 ++ { b with isReceived := true } :: l2 := by
  intro blocks
  induction blocks with
  | nil => intro b h; simp [List.find?] at h
  | cons x xs ih =>
    intro b h
    by_cases hx : x.offset = offset
    · rw [List.find?_cons_of_pos _ (by simpa using hx)] at h
      cases h
      refine ⟨[], xs, rfl, hx, by simp, ?_⟩
      simp [markFirstReceived, hx]
    · rw [List.find?_cons_of_neg _ (by simpa using hx)] at h
      obtain ⟨l1, l2, hdec, hb, hl1, hmark⟩ := ih b h
      refine ⟨x :: l1, l2, by rw [hdec]; simp, hb, ?_, ?_⟩
      · intro y hy
        rcases List.mem_cons.mp hy with hy | hy
        · subst hy; exact hx
        · exact hl1 y hy
      · simp only [markFirstReceived, if_neg hx, hmark, List.cons_append]

/-- C1: `Piece.block_received` rejects (returns `None`, changing
nothing) when no block matches the offset, the data length differs, or
the block was already received; otherwise it marks the block received
and (i) when the counter reaches the block count — equivalently, when
every block is now received — it hashes the reassembly buffer: on a
match `is_complete` becomes true and it returns `True`; on a mismatch
every block's request/receive state is reset, the counter is cleared,
`is_complete` stays false and it returns `False`; (ii) an accepted
block that does not complete the piece returns `False`. -/
theorem block_received_spec (hash : List Nat → List Nat) (pieceLength : Nat)
    (p : Piece) (st : Storage) (offset : Nat) (data : List Nat)
    (hcnt : p.blocksReceived = (p.blocks.filter (fun b => b.isReceived)).length) :
    ((∀ b ∈ p.blocks, b.offset ≠ offset) →
        Piece.block_received hash pieceLength p st offset data = (none, p, st)) ∧
    (∀ b, p.blocks.find? (fun x => x.offset = offset) = some b →
      ((data.length ≠ b.length ∨ b.isReceived = true) →
          Piece.block_received hash pieceLength p st offset data = (none, p, st)) ∧
      (data.length = b.length → b.isReceived = false →
        ({ b with isReceived := true } ∈ markFirstReceived offset p.blocks ∧
          (markFirstReceived offset p.blocks).length = p.blocks.length) ∧
        (p.blocksReceived + 1 = p.blocks.length ↔
          ∀ x ∈ markFirstReceived offset p.blocks, x.isReceived = true) ∧
        (p.blocksReceived + 1 = p.blocks.length →
          hash (sliceSet p.buffer offset data) = p.sha1 →
          Piece.block_received hash pieceLength p st offset data =
            (some true,
             { p with isComplete := true, blocks := markFirstReceived offset p.blocks,
                      buffer := [], blocksReceived := p.blocksReceived + 1 },
             storage_write st pieceLength p.index offset data)) ∧
        (p.blocksReceived + 1 = p.blocks.length →
          hash (sliceSet p.buffer offset data) ≠ p.sha1 →
          Piece.block_received hash pieceLength p st offset data =
            (some false,
             { p with isComplete := false,
                      blocks := (markFirstReceived offset p.blocks).map Block.reset,
                      buffer := sliceSet p.buffer offset data, blocksReceived := 0 },
             storage_write st pieceLength p.index offset data) ∧
          ∀ x ∈ (markFirstReceived offset p.blocks).map Block.reset,
            x.isRequested = false ∧ x.isReceived = false) ∧
        (p.blocksReceived + 1 ≠ p.blocks.length →
          Piece.block_received hash pieceLength p st offset data =
            (some false,
             { p with blocks := markFirstReceived offset p.blocks,
                      buffer := sliceSet p.buffer offset data,
                      blocksReceived := p.blocksReceived + 1 },
             storage_write st pieceLength p.index offset data)))) := by
  constructor
  · intro hnone
    have hfind : p.blocks.find? (fun x => x.offset = offset) = none := by
      rw [List.find?_eq_none]
      intro x hx
      simpa using hnone x hx
    unfold Piece.block_received
    rw [hfind]
  · intro b hfind
    obtain ⟨l1, l2, hdec, hboff, hl1, hmark⟩ := markFirstReceived_decomp offset p.blocks b hfind
    constructor
    · intro hrej
      unfold Piece.block_received
      rw [hfind]
      dsimp only
      rcases hrej with hrej | hrej
      · rw [if_pos hrej]
      · by_cases hlen : data.length ≠ b.length
        · rw [if_pos hlen]
        · rw [if_neg hlen, if_pos hrej]
    · intro hlen hrecv
      have hcount1 : ((markFirstReceived offset p.blocks).filter
          (fun x => x.isReceived)).length =
            (p.blocks.filter (fun x => x.isReceived)).length + 1 := by
        rw [hmark, hdec, List.filter_append, List.filter_append]
        simp [List.filter_cons, hrecv]
        omega
      have hml : (markFirstReceived offset p.blocks).length = p.blocks.length := by
        rw [hmark, hdec]
        simp
      refine ⟨⟨?_, ?_⟩, ?_, ?_, ?_, ?_⟩
      · rw [hmark]
        exact List.mem_append_right l1 (List.mem_cons_self _ _)
      · exact hml
      · constructor
        · intro hfull
          have hall : ((markFirstReceived offset p.blocks).filter
              (fun x => x.isReceived)).length = (markFirstReceived offset p.blocks).length := by
            rw [hcount1, hml]
            omega
          intro x hx
          simpa using List.filter_length_eq_length.mp hall x hx
        · intro hall
          have hlenfull : ((markFirstReceived offset p.blocks).filter
              (fun x => x.isReceived)).length = (markFirstReceived offset p.blocks).length :=
            List.filter_length_eq_length.mpr (by intro a ha; simpa using hall a ha)
          rw [hcount1, hml] at hlenfull
          omega
      · intro hfull hhash
        unfold Piece.block_received
        rw [hfind]
        dsimp only
        rw [if_neg (by omega), if_neg (by rw [hrecv]; exact Bool.false_ne_true),
          if_pos hfull, if_pos hhash]
      · intro hfull hhash
        unfold Piece.block_received
        rw [hfind]
        dsimp only
        rw [if_neg (by omega), if_neg (by rw [hrecv]; exact Bool.false_ne_true),
          if_pos hfull, if_neg hhash]
        refine ⟨rfl, ?_⟩
        intro x hx
        rw [List.mem_map] at hx
        obtain ⟨y, -, hy⟩ := hx
        rw [← hy]
        exact ⟨rfl, rfl⟩
      · intro hfull
        unfold Piece.block_received
        rw [hfind]
        dsimp only
        rw [if_neg (by omega), if_neg (by rw [hrecv]; exact Bool.false_ne_true),
          if_neg hfull]

theorem block_received_spec_witness :
    Piece.block_received (fun _ => [9]) 4
        { index := 0, sha1 := [9], length := 4, isComplete := false,
          blocks := [Block.mkNew 0 0 2, Block.mkNew 0 2 2], buffer := [0, 0, 0, 0],
          blocksReceived := 0 }
        (fun _ => 0) 0 [5, 6] =
      (some false,
       { index := 0, sha1 := [9], length := 4, isComplete := false,
         blocks := markFirstReceived 0 [Block.mkNew 0 0 2, Block.mkNew 0 2 2],
         buffer := sliceSet [0, 0, 0, 0] 0 [5, 6], blocksReceived := 1 },
       storage_write (fun _ => 0) 4 0 0 [5, 6]) := by
  have h := (block_received_spec (fun _ => [9]) 4
      { index := 0, sha1 := [9], length := 4, isComplete := false,
        blocks := [Block.mkNew 0 0 2, Block.mkNew 0 2 2], buffer := [0, 0, 0, 0],
        blocksReceived := 0 }
      (fun _ => 0) 0 [5, 6] (by decide)).2 (Block.mkNew 0 0 2) (by decide)
  exact ((h.2 (by decide) (by decide)).2.2.2.2) (by decide)

/-- C10: for every accepted block, `Piece.block_received` writes the
block's bytes through the piece store (at
`piece_index * piece_length + offset`), and this write survives the
call's outcome — in particular a hash mismatch resets only the blocks'
flags and the received counter, never the bytes already written; a
rejected block leaves the store untouched. -/
theorem block_received_store_frame (hash : List Nat → List Nat) (pieceLength : Nat)
    (p : Piece) (st : Storage) (offset : Nat) (data : List Nat) :
    ((Piece.block_received hash pieceLength p st offset data).1 = none →
        (Piece.block_received hash pieceLength p st offset data).2.2 = st) ∧
    ((Piece.block_received hash pieceLength p st offset data).1 ≠ none →
        (Piece.block_received hash pieceLength p st offset data).2.2 =
          storage_write st pieceLength p.index offset data ∧
        ∀ j, j < data.length →
          (Piece.block_received hash pieceLength p st offset data).2.2
              (p.index * pieceLength + offset + j) = data.getD j 0) := by
  have hpt : ∀ j, j < data.length →
      storage_write st pieceLength p.index offset data
          (p.index * pieceLength + offset + j) = data.getD j 0 := by
    intro j hj
    unfold storage_write
    rw [if_pos ⟨by omega, by omega⟩]
    congr 1
    omega
  unfold Piece.block_received
  rcases hfind : p.blocks.find? (fun x => x.offset = offset) with _ | b
  · rw [hfind]
    exact ⟨fun _ => rfl, fun hne => absurd rfl hne⟩
  · rw [hfind]
    dsimp only
    by_cases h1 : data.length ≠ b.length
    · rw [if_pos h1]
      exact ⟨fun _ => rfl, fun hne => absurd rfl hne⟩
    · rw [if_neg h1]
      by_cases h2 : b.isReceived = true
      · rw [if_pos h2]
        exact ⟨fun _ => rfl, fun hne => absurd rfl hne⟩
      · rw [if_neg h2]
        by_cases h3 : p.blocksReceived + 1 = p.blocks.length
        · rw [if_pos h3]
          by_cases h4 : hash (sliceSet p.buffer offset data) = p.sha1
          · rw [if_pos h4]
            exact ⟨fun hc => absurd hc (by simp), fun _ => ⟨rfl, hpt⟩⟩
          · rw [if_neg h4]
            exact ⟨fun hc => absurd hc (by simp), fun _ => ⟨rfl, hpt⟩⟩
        · rw [if_neg h3]
          exact ⟨fun hc => absurd hc (by simp), fun _ => ⟨rfl, hpt⟩⟩

theorem block_received_store_frame_witness :
    (Piece.block_received (fun _ => [7]) 4
        { index := 0, sha1 := [9], length := 4, isComplete := false,
          blocks := [Block.mkNew 0 0 2, Block.mkNew 0 2 2], buffer := [0, 0, 0, 0],
          blocksReceived := 0 }
        (fun _ => 0) 2 [5, 6]).1 ≠ none ∧
      (Piece.block_received (fun _ => [7]) 4
        { index := 0, sha1 := [9], length := 4, isComplete := false,
          blocks := [Block.mkNew 0 0 2, Block.mkNew 0 2 2], buffer := [0, 0, 0, 0],
          blocksReceived := 0 }
        (fun _ => 0) 2 [5, 6]).2.2 =
        storage_write (fun _ => 0) 4 0 2 [5, 6] ∧
      (Piece.block_received (fun _ => [7]) 4
        { index := 0, sha1 := [9], length := 4, isComplete := false,
          blocks := [Block.mkNew 0 0 2, Block.mkNew 0 2 2], buffer := [0, 0, 0, 0],
          blocksReceived := 0 }
        (fun _ => 0) 2 [5, 6]).2.2 2 = 5 := by
  have h := (block_received_store_frame (fun _ => [7]) 4
      { index := 0, sha1 := [9], length := 4, isComplete := false,
        blocks := [Block.mkNew 0 0 2, Block.mkNew 0 2 2], buffer := [0, 0, 0, 0],
        blocksReceived := 0 }
      (fun _ => 0) 2 [5, 6]).2 (by decide)
  refine ⟨by decide, h.1, ?_⟩
  have h0 := h.2 0 (by decide)
  simpa using h0

/-! ## Rarest-first request selection (C3) -/

theorem foldl_min_le (l : List Nat) : ∀ a : Nat,
    l.foldl min a ≤ a ∧ ∀ x ∈ l, l.foldl min a ≤ x := by
  induction l with
  | nil => intro a; exact ⟨le_refl a, by simp⟩
  | cons y ys ih =>
    intro a
    rw [List.foldl_cons]
    obtain ⟨h1, h2⟩ := ih (min a y)
    refine ⟨le_trans h1 (min_le_left a y), ?_⟩
    intro x hx
    rcases List.mem_cons.mp hx with hx | hx
    · subst hx
      exact le_trans h1 (min_le_right a x)
    · exact h2 x hx

theorem foldl_min_mem (l : List Nat) : ∀ a : Nat,
    l.foldl min a = a ∨ l.foldl min a ∈ l := by
  induction l with
  | nil => intro a; exact Or.inl rfl
  | cons y ys ih =>
    intro a
    rw [List.foldl_cons]
    rcases ih (min a y) with h | h
    · rcases min_cases a y with ⟨hm, -⟩ | ⟨hm, -⟩
      · exact Or.inl (h.trans hm)
      · exact Or.inr (by rw [h, hm]; exact List.mem_cons_self y ys)
    · exact Or.inr (List.mem_cons_of_mem y h)

theorem nextFreeBlock_none_iff (now : ℚ) (l : List Block) :
    (nextFreeBlock now l).1 = none ↔
      ∀ b ∈ l, ¬(b.isRequested = false ∧ b.isReceived = false) := by
  induction l with
  | nil => simp [nextFreeBlock]
  | cons b bs ih =>
    unfold nextFreeBlock
    by_cases hfree : b.isRequested = false ∧ b.isReceived = false
    · rw [if_pos hfree]
      simp [hfree]
    · rw [if_neg hfree]
      constructor
      · intro h x hx
        rcases List.mem_cons.mp hx with hx | hx
        · subst hx; exact hfree
        · exact (ih.mp (by dsimp only at h ⊢; exact h)) x hx
      · intro h
        dsimp only
        exact ih.mpr (fun x hx => h x (List.mem_cons_of_mem b hx))

theorem nextFreeBlock_some (now : ℚ) (l : List Block) (b : Block) :
    (nextFreeBlock now l).1 = some b →
      ∃ bl ∈ l, bl.isRequested = false ∧ bl.isReceived = false ∧
        b = bl.set_requested now := by
  induction l with
  | nil => intro h; simp [nextFreeBlock] at h
  | cons x xs ih =>
    intro h
    unfold nextFreeBlock at h
    by_cases hfree : x.isRequested = false ∧ x.isReceived = false
    · rw [if_pos hfree] at h
      simp only [Option.some.injEq] at h
      exact ⟨x, List.mem_cons_self x xs, hfree.1, hfree.2, h.symm⟩
    · rw [if_neg hfree] at h
      dsimp only at h
      obtain ⟨bl, hmem, h1, h2, h3⟩ := ih h
      exact ⟨bl, List.mem_cons_of_mem x hmem, h1, h2, h3⟩

theorem firstBlockOf_none_iff (now : ℚ) (l : List Piece) :
    firstBlockOf now l = none ↔ ∀ p ∈ l, hasFreeBlock p = false := by
  induction l with
  | nil => simp [firstBlockOf]
  | cons p ps ih =>
    unfold firstBlockOf
    cases hnb : (p.next_block now).1 with
    | some b =>
      simp only [hnb]
      constructor
      · intro h; exact absurd h (by simp)
      · intro h
        have hfree := h p (List.mem_cons_self p ps)
        have : (nextFreeBlock now p.blocks).1 = none := by
          rw [nextFreeBlock_none_iff]
          intro x hx
          rw [hasFreeBlock] at hfree
          have := List.any_eq_false.mp hfree x hx
          simpa using this
        rw [Piece.next_block] at hnb
        dsimp only at hnb
        rw [this] at hnb
        exact absurd hnb (by simp)
    | none =>
      simp only [hnb]
      constructor
      · intro h x hx
        rcases List.mem_cons.mp hx with hx | hx
        · subst hx
          rw [Piece.next_block] at hnb
          dsimp only at hnb
          rw [hasFreeBlock, List.any_eq_false]
          intro y hy
          have := (nextFreeBlock_none_iff now x.blocks).mp hnb y hy
          simpa using this
        · exact ih.mp h x hx
      · intro h
        exact ih.mpr (fun x hx => h x (List.mem_cons_of_mem p hx))

theorem firstBlockOf_some (now : ℚ) (l : List Piece) (b : Block) :
    firstBlockOf now l = some b → ∃ p ∈ l, (p.next_block now).1 = some b := by
  induction l with
  | nil => intro h; simp [firstBlockOf] at h
  | cons p ps ih =>
    intro h
    unfold firstBlockOf at h
    cases hnb : (p.next_block now).1 with
    | some b2 =>
      rw [hnb] at h
      simp only [Option.some.injEq] at h
      exact ⟨p, List.mem_cons_self p ps, by rw [hnb, h]⟩
    | none =>
      rw [hnb] at h
      obtain ⟨q, hq, hqb⟩ := ih h
      exact ⟨q, List.mem_cons_of_mem p hq, hqb⟩

theorem next_block_fst_some (now : ℚ) (p : Piece) (b : Block) :
    (p.next_block now).1 = some b →
      ∃ bl ∈ p.blocks, bl.isRequested = false ∧ bl.isReceived = false ∧
        b = bl.set_requested now := by
  intro h
  rw [Piece.next_block] at h
  dsimp only at h
  exact nextFreeBlock_some now p.blocks b h

/-- C3: `next_request_rarest_first` returns `None` exactly when no
candidate piece (not complete and set in the peer bitmap) has a free
block; any returned block belongs to a candidate piece; the computed
`min` is the true minimum availability over the candidates, and
whenever some minimum-availability candidate has a free block the
returned block's piece sits at that minimum (otherwise any free block
of the wider candidate set is handed out); in the concrete scenario
with availabilities `{0: 3, 1: 2, 2: 1}` and a peer holding all three
pieces, a block of piece 2 is returned — all of this for every
permutation-producing `shuffle`, modelling `random.shuffle`. -/
theorem next_request_rarest_first_spec (pieces : List Piece) (avail : Nat → Nat)
    (peerBitmap : Nat → Bool) (shuffle : List Piece → List Piece) (now : ℚ)
    (hsh : ∀ l : List Piece, (shuffle l).Perm l)
    (hpi : ∀ p ∈ pieces, ∀ bl ∈ p.blocks, bl.pieceIndex = p.index) :
    (next_request_rarest_first pieces avail peerBitmap shuffle now = none ↔
      ∀ p ∈ rarestChoices pieces peerBitmap, hasFreeBlock p = false) ∧
    (∀ b, next_request_rarest_first pieces avail peerBitmap shuffle now = some b →
      ∃ p ∈ rarestChoices pieces peerBitmap,
        p.isComplete = false ∧ peerBitmap p.index = true ∧ b.pieceIndex = p.index) ∧
    (∀ c cs, rarestChoices pieces peerBitmap = c :: cs →
      (∀ p ∈ c :: cs, minAvailOf avail c cs ≤ avail p.index) ∧
      (∃ p ∈ c :: cs, avail p.index = minAvailOf avail c cs)) ∧
    (∀ c cs, rarestChoices pieces peerBitmap = c :: cs →
      (∃ q ∈ c :: cs, hasFreeBlock q = true ∧ avail q.index = minAvailOf avail c cs) →
      ∀ b, next_request_rarest_first pieces avail peerBitmap shuffle now = some b →
        avail b.pieceIndex = minAvailOf avail c cs) ∧
    (∃ bex, next_request_rarest_first examplePieces exampleAvail (fun _ => true) shuffle now
        = some bex ∧ bex.pieceIndex = 2) := by
  have hchoices_mem : ∀ p ∈ rarestChoices pieces peerBitmap,
      p ∈ pieces ∧ p.isComplete = false ∧ peerBitmap p.index = true := by
    intro p hp
    obtain ⟨h1, h2⟩ := List.mem_filter.mp hp
    have h3 : p.isComplete = false ∧ peerBitmap p.index = true := by simpa using h2
    exact ⟨h1, h3.1, h3.2⟩
  have hconc : ∃ bex,
      next_request_rarest_first examplePieces exampleAvail (fun _ => true) shuffle now
        = some bex ∧ bex.pieceIndex = 2 := by
    have hsing : shuffle [examplePiece 2] = [examplePiece 2] :=
      List.perm_singleton.mp (hsh [examplePiece 2])
    have h1 : next_request_rarest_first examplePieces exampleAvail (fun _ => true) shuffle now =
        match firstBlockOf now (shuffle [examplePiece 2]) with
        | some b => some b
        | none => firstBlockOf now examplePieces := rfl
    have h2 : firstBlockOf now [examplePiece 2] =
        some ((Block.mkNew 2 0 16384).set_requested now) := rfl
    refine ⟨(Block.mkNew 2 0 16384).set_requested now, ?_, rfl⟩
    rw [h1, hsing, h2]
  have hminprops : ∀ c cs, rarestChoices pieces peerBitmap = c :: cs →
      (∀ p ∈ c :: cs, minAvailOf avail c cs ≤ avail p.index) ∧
      (∃ p ∈ c :: cs, avail p.index = minAvailOf avail c cs) := by
    intro c cs _
    constructor
    · intro p hp
      obtain ⟨hle, hmem⟩ := foldl_min_le (cs.map (fun p => avail p.index)) (avail c.index)
      rcases List.mem_cons.mp hp with hp | hp
      · subst hp; exact hle
      · exact hmem (avail p.index) (List.mem_map_of_mem _ hp)
    · rcases foldl_min_mem (cs.map (fun p => avail p.index)) (avail c.index) with h | h
      · exact ⟨c, List.mem_cons_self c cs, h.symm⟩
      · obtain ⟨p, hp, hpv⟩ := List.mem_map.mp h
        exact ⟨p, List.mem_cons_of_mem c hp, hpv⟩
  rcases hch : rarestChoices pieces peerBitmap with _ | ⟨c, cs⟩
  · refine ⟨?_, ?_, ?_, ?_, hconc⟩
    · constructor
      · intro _ p hp
        simp at hp
      · intro _
        unfold next_request_rarest_first
        rw [hch]
    · intro b hb
      unfold next_request_rarest_first at hb
      rw [hch] at hb
      simp at hb
    · intro c cs hch2
      simp at hch2
    · intro c cs hch2
      simp at hch2
  · have hrarest_mem : ∀ p ∈ shuffle ((c :: cs).filter
        (fun p => avail p.index = minAvailOf avail c cs)), p ∈ c :: cs := by
      intro p hp
      have hp2 := ((hsh _).mem_iff).mp hp
      exact (List.mem_filter.mp hp2).1
    refine ⟨?_, ?_, fun c2 cs2 hch2 => by
        injection hch2 with e1 e2
        subst e1
        subst e2
        exact hminprops c cs hch, ?_, hconc⟩
    · unfold next_request_rarest_first
      rw [hch]
      dsimp only
      constructor
      · intro h p hp
        cases hfb : firstBlockOf now (shuffle ((c :: cs).filter
            (fun p => avail p.index = minAvailOf avail c cs))) with
        | some b => rw [hfb] at h; simp at h
        | none =>
          rw [hfb] at h
          exact (firstBlockOf_none_iff now (c :: cs)).mp h p hp
      · intro h
        have hall : ∀ p ∈ c :: cs, hasFreeBlock p = false := h
        have h1 : firstBlockOf now (shuffle ((c :: cs).filter
            (fun p => avail p.index = minAvailOf avail c cs))) = none := by
          rw [firstBlockOf_none_iff]
          intro p hp
          exact hall p (hrarest_mem p hp)
        rw [h1]
        exact (firstBlockOf_none_iff now (c :: cs)).mpr hall
    · intro b hb
      unfold next_request_rarest_first at hb
      rw [hch] at hb
      dsimp only at hb
      have hpfrom : ∃ p ∈ c :: cs, (p.next_block now).1 = some b := by
        cases hfb : firstBlockOf now (shuffle ((c :: cs).filter
            (fun p => avail p.index = minAvailOf avail c cs))) with
        | some b2 =>
          rw [hfb] at hb
          simp only [Option.some.injEq] at hb
          obtain ⟨p, hp, hpb⟩ := firstBlockOf_some now _ b2 hfb
          exact ⟨p, hrarest_mem p hp, by rw [hpb, hb]⟩
        | none =>
          rw [hfb] at hb
          exact firstBlockOf_some now _ b hb
      obtain ⟨p, hp, hpb⟩ := hpfrom
      have hpmem : p ∈ rarestChoices pieces peerBitmap := by rw [hch]; exact hp
      obtain ⟨hppieces, hpc, hpbm⟩ := hchoices_mem p hpmem
      obtain ⟨bl, hbl, -, -, hbeq⟩ := next_block_fst_some now p b hpb
      refine ⟨p, hp, hpc, hpbm, ?_⟩
      rw [hbeq]
      exact hpi p hppieces bl hbl
    · intro c2 cs2 hch2 hexq b hb
      injection hch2 with e1 e2
      subst e1
      subst e2
      obtain ⟨q, hq, hqfree, hqavail⟩ := hexq
      have hqr : q ∈ (c :: cs).filter
          (fun p => avail p.index = minAvailOf avail c cs) :=
        List.mem_filter.mpr ⟨hq, by simpa using hqavail⟩
      have hqs : q ∈ shuffle ((c :: cs).filter
          (fun p => avail p.index = minAvailOf avail c cs)) :=
        ((hsh _).mem_iff).mpr hqr
      have hne : firstBlockOf now (shuffle ((c :: cs).filter
          (fun p => avail p.index = minAvailOf avail c cs))) ≠ none := by
        intro hnone
        have hzero := (firstBlockOf_none_iff now _).mp hnone q hqs
        rw [hqfree] at hzero
        simp at hzero
      unfold next_request_rarest_first at hb
      rw [hch] at hb
      dsimp only at hb
      cases hfb : firstBlockOf now (shuffle ((c :: cs).filter
          (fun p => avail p.index = minAvailOf avail c cs))) with
      | none => exact absurd hfb hne
      | some b2 =>
        rw [hfb] at hb
        simp only [Option.some.injEq] at hb
        subst hb
        obtain ⟨p, hp, hpb⟩ := firstBlockOf_some now _ b2 hfb
        have hpr : p ∈ (c :: cs).filter
            (fun p => avail p.index = minAvailOf avail c cs) :=
          ((hsh _).mem_iff).mp hp
        have hpavail : avail p.index = minAvailOf avail c cs := by
          simpa using (List.mem_filter.mp hpr).2
        obtain ⟨bl, hbl, -, -, hbeq⟩ := next_block_fst_some now p b2 hpb
        have hpmem : p ∈ rarestChoices pieces peerBitmap := by
          rw [hch]
          exact (List.mem_filter.mp hpr).1
        obtain ⟨hppieces, -, -⟩ := hchoices_mem p hpmem
        rw [hbeq]
        rw [show (bl.set_requested now).pieceIndex = bl.pieceIndex from rfl,
          hpi p hppieces bl hbl, hpavail]

theorem next_request_rarest_first_spec_witness :
    ∃ bex, next_request_rarest_first examplePieces exampleAvail (fun _ => true)
        (fun l => l) 0 = some bex ∧ bex.pieceIndex = 2 :=
  (next_request_rarest_first_spec examplePieces exampleAvail (fun _ => true) (fun l => l) 0
    (fun l => List.Perm.refl l) (by decide)).2.2.2.2

/-! ## Incremental framing parser = one-shot parser (C4) -/

theorem drainLoop_eq_none (x u : ParseState) (hx : parseOne x = (none, u)) :
    drainLoop x = ([], u) := by
  conv_lhs => unfold drainLoop
  split
  · rename_i t heq
    rw [hx] at heq
    simp only [Prod.mk.injEq] at heq
    rw [heq.2]
  · rename_i m t heq
    rw [hx] at heq
    simp at heq

theorem drainLoop_eq_some (x : ParseState) (m : WireMsg) (u : ParseState)
    (hx : parseOne x = (some m, u)) :
    drainLoop x = (m :: (drainLoop u).1, (drainLoop u).2) := by
  conv_lhs => unfold drainLoop
  split
  · rename_i t heq
    rw [hx] at heq
    simp at heq
  · rename_i m2 t heq
    rw [hx] at heq
    simp only [Prod.mk.injEq, Option.some.injEq] at heq
    rw [heq.1, heq.2]

theorem parseOne_some_lt (s : ParseState) (m : WireMsg) (t : ParseState)
    (h : parseOne s = (some m, t)) : t.recvBuffer.length < s.recvBuffer.length := by
  unfold parseOne at h
  split at h
  · split at h
    · split at h
      · rename_i hbuf _
        simp only [Prod.mk.injEq] at h
        obtain ⟨-, ht⟩ := h
        subst ht
        simp [hbuf]
        omega
      · split at h
        · split at h
          · simp only [Prod.mk.injEq] at h
            obtain ⟨-, ht⟩ := h
            subst ht
            simp only [List.length_drop]
            simp_all
            omega
          · simp_all
        · simp_all
    · simp_all
  · split at h
    · split at h
      · rename_i hn htake
        have h4 := congrArg List.length htake
        simp only [List.length_take, List.length_cons] at h4
        simp only [Prod.mk.injEq] at h
        obtain ⟨-, ht⟩ := h
        subst ht
        simp only [List.length_drop]
        omega
      · simp_all
    · simp_all

theorem parseOne_append_some (s : ParseState) (m : WireMsg) (t : ParseState) (ext : List Nat)
    (h : parseOne s = (some m, t)) :
    parseOne ⟨s.recvBuffer ++ ext, s.bytesNeeded⟩ =
      (some m, ⟨t.recvBuffer ++ ext, t.bytesNeeded⟩) := by
  rcases s with ⟨buf, bn⟩
  cases bn with
  | none =>
    rcases buf with _ | ⟨a, buf⟩
    · simp [parseOne] at h
    rcases buf with _ | ⟨b, buf⟩
    · simp [parseOne] at h
    rcases buf with _ | ⟨c, buf⟩
    · simp [parseOne] at h
    rcases buf with _ | ⟨d, rest⟩
    · simp [parseOne] at h
    unfold parseOne at h
    dsimp only at h
    simp only [List.cons_append]
    unfold parseOne
    dsimp only
    by_cases h0 : be32 a b c d = 0
    · rw [if_pos h0] at h ⊢
      simp only [Prod.mk.injEq] at h
      obtain ⟨hm, ht⟩ := h
      rw [← hm, ← ht]
    · rw [if_neg h0] at h ⊢
      by_cases h1 : be32 a b c d ≤ rest.length
      · rw [if_pos h1] at h
        rw [if_pos (by simp only [List.length_append]; omega :
          be32 a b c d ≤ (rest ++ ext).length)]
        rw [List.take_append_of_le_length h1, List.drop_append_of_le_length h1]
        cases htake : rest.take (be32 a b c d) with
        | nil =>
          rw [htake] at h
          simp at h
        | cons i payload =>
          rw [htake] at h
          simp only [Prod.mk.injEq] at h
          obtain ⟨hm, ht⟩ := h
          rw [← hm, ← ht]
      · rw [if_neg h1] at h
        simp at h
  | some n =>
    unfold parseOne at h
    dsimp only at h
    unfold parseOne
    dsimp only
    by_cases h1 : n ≤ buf.length
    · rw [if_pos h1] at h
      rw [if_pos (by simp only [List.length_append]; omega : n ≤ (buf ++ ext).length)]
      rw [List.take_append_of_le_length h1, List.drop_append_of_le_length h1]
      cases htake : buf.take n with
      | nil =>
        rw [htake] at h
        simp at h
      | cons i payload =>
        rw [htake] at h
        simp only [Prod.mk.injEq] at h
        obtain ⟨hm, ht⟩ := h
        rw [← hm, ← ht]
    · rw [if_neg h1] at h
      simp at h

theorem parseOne_append_none (s t : ParseState) (ext : List Nat)
    (h : parseOne s = (none, t)) :
    parseOne ⟨s.recvBuffer ++ ext, s.bytesNeeded⟩ =
      parseOne ⟨t.recvBuffer ++ ext, t.bytesNeeded⟩ := by
  rcases s with ⟨buf, bn⟩
  cases bn with
  | none =>
    rcases buf with _ | ⟨a, buf⟩
    · unfold parseOne at h
      dsimp only at h
      simp only [Prod.mk.injEq] at h
      obtain ⟨-, ht⟩ := h
      rw [← ht]
    rcases buf with _ | ⟨b, buf⟩
    · unfold parseOne at h
      dsimp only at h
      simp only [Prod.mk.injEq] at h
      obtain ⟨-, ht⟩ := h
      rw [← ht]
    rcases buf with _ | ⟨c, buf⟩
    · unfold parseOne at h
      dsimp only at h
      simp only [Prod.mk.injEq] at h
      obtain ⟨-, ht⟩ := h
      rw [← ht]
    rcases buf with _ | ⟨d, rest⟩
    · unfold parseOne at h
      dsimp only at h
      simp only [Prod.mk.injEq] at h
      obtain ⟨-, ht⟩ := h
      rw [← ht]
    unfold parseOne at h
    dsimp only at h
    by_cases h0 : be32 a b c d = 0
    · rw [if_pos h0] at h
      simp at h
    · rw [if_neg h0] at h
      by_cases h1 : be32 a b c d ≤ rest.length
      · rw [if_pos h1] at h
        cases htake : rest.take (be32 a b c d) with
        | cons i payload =>
          rw [htake] at h
          simp at h
        | nil =>
          exfalso
          have hlen := congrArg List.length htake
          simp only [List.length_take, List.length_nil] at hlen
          omega
      · rw [if_neg h1] at h
        simp only [Prod.mk.injEq] at h
        obtain ⟨-, ht⟩ := h
        rw [← ht]
        simp only [List.cons_append]
        unfold parseOne
        dsimp only
        rw [if_neg h0]
  | some n =>
    unfold parseOne at h
    dsimp only at h
    by_cases h1 : n ≤ buf.length
    · rw [if_pos h1] at h
      cases htake : buf.take n with
      | cons i payload =>
        rw [htake] at h
        simp at h
      | nil =>
        rw [htake] at h
        simp only [Prod.mk.injEq] at h
        obtain ⟨-, ht⟩ := h
        rw [← ht]
    · rw [if_neg h1] at h
      simp only [Prod.mk.injEq] at h
      obtain ⟨-, ht⟩ := h
      rw [← ht]

theorem parseOne_none_stuck (s t : ParseState) (h : parseOne s = (none, t)) :
    parseOne t = (none, t) := by
  have h2 := parseOne_append_none s t [] h
  simp only [List.append_nil] at h2
  exact h2.symm.trans h

theorem drainLoop_append_bound (n : Nat) :
    ∀ s : ParseState, s.recvBuffer.length < n → ∀ ext : List Nat,
      drainLoop ⟨s.recvBuffer ++ ext, s.bytesNeeded⟩ =
        ((drainLoop s).1 ++
          (drainLoop ⟨(drainLoop s).2.recvBuffer ++ ext, (drainLoop s).2.bytesNeeded⟩).1,
         (drainLoop ⟨(drainLoop s).2.recvBuffer ++ ext, (drainLoop s).2.bytesNeeded⟩).2) := by
  induction n with
  | zero => intro s hs; omega
  | succ n ih =>
    intro s hs ext
    rcases hp : parseOne s with ⟨m, t⟩
    cases m with
    | none =>
      have h1 := drainLoop_eq_none s t hp
      have h2 := parseOne_append_none s t ext hp
      have h3 : drainLoop ⟨s.recvBuffer ++ ext, s.bytesNeeded⟩ =
          drainLoop ⟨t.recvBuffer ++ ext, t.bytesNeeded⟩ := by
        rcases hq : parseOne ⟨t.recvBuffer ++ ext, t.bytesNeeded⟩ with ⟨m2, u⟩
        cases m2 with
        | none =>
          rw [drainLoop_eq_none _ u (h2.trans hq), drainLoop_eq_none _ u hq]
        | some m2 =>
          rw [drainLoop_eq_some _ m2 u (h2.trans hq), drainLoop_eq_some _ m2 u hq]
      rw [h3, h1]
      simp
    | some m =>
      have hlt := parseOne_some_lt s m t hp
      have h1 := drainLoop_eq_some s m t hp
      have h2 := parseOne_append_some s m t ext hp
      rw [drainLoop_eq_some _ m _ h2, h1]
      have hih := ih t (by omega) ext
      rw [hih]
      simp

/-- The parser state left by a drain is stuck: one more `parseOne` call
yields no message and does not change it. -/
theorem drainLoop_snd_stuck (n : Nat) :
    ∀ s : ParseState, s.recvBuffer.length < n →
      parseOne (drainLoop s).2 = (none, (drainLoop s).2) := by
  induction n with
  | zero => intro s hs; omega
  | succ n ih =>
    intro s hs
    rcases hp : parseOne s with ⟨m, t⟩
    cases m with
    | none =>
      rw [drainLoop_eq_none s t hp]
      exact parseOne_none_stuck s t hp
    | some m =>
      have hlt := parseOne_some_lt s m t hp
      rw [drainLoop_eq_some s m t hp]
      exact ih t (by omega)

theorem feedAll_drains (chunks : List (List Nat)) :
    ∀ s : ParseState, parseOne s = (none, s) →
      feedAll s chunks = drainLoop ⟨s.recvBuffer ++ chunks.flatten, s.bytesNeeded⟩ := by
  induction chunks with
  | nil =>
    intro s hs
    simp only [feedAll, List.flatten_nil, List.append_nil]
    exact (drainLoop_eq_none s s hs).symm
  | cons c cs ih =>
    intro s hs
    have hstuck : parseOne (drainLoop ⟨s.recvBuffer ++ c, s.bytesNeeded⟩).2 =
        (none, (drainLoop ⟨s.recvBuffer ++ c, s.bytesNeeded⟩).2) :=
      drainLoop_snd_stuck ((s.recvBuffer ++ c).length + 1) _ (Nat.lt_succ_self _)
    simp only [feedAll, feedChunk]
    rw [ih _ hstuck]
    have happ := drainLoop_append_bound ((s.recvBuffer ++ c).length + 1)
      ⟨s.recvBuffer ++ c, s.bytesNeeded⟩ (by simp) cs.flatten
    simp only [List.flatten_cons, ← List.append_assoc]
    rw [happ]

theorem be32_be32bytes (len : Nat) (h : len < 4294967296) :
    be32 (len / 16777216 % 256) (len / 65536 % 256) (len / 256 % 256) (len % 256) = len := by
  unfold be32
  omega

theorem parseOne_encode (m : WireMsg) (hwf : wfWire m) (rest : List Nat) :
    parseOne ⟨encodeWire m ++ rest, none⟩ = (some m, ⟨rest, none⟩) := by
  cases m with
  | keepAlive =>
    simp only [encodeWire, be32bytes]
    simp only [List.cons_append, List.nil_append]
    unfold parseOne
    dsimp only
    rw [if_pos (by norm_num [be32])]
  | message i payload =>
    obtain ⟨-, hlen⟩ := hwf
    simp only [encodeWire, be32bytes]
    simp only [List.cons_append, List.nil_append]
    unfold parseOne
    dsimp only
    rw [be32_be32bytes (payload.length + 1) hlen]
    rw [if_neg (by omega)]
    have hle : payload.length + 1 ≤ (i :: (payload ++ rest)).length := by
      simp only [List.length_cons, List.length_append]
      omega
    rw [if_pos hle, List.take_succ_cons, List.drop_succ_cons,
      List.take_append_of_le_length (le_refl payload.length),
      List.drop_append_of_le_length (le_refl payload.length)]
    simp

theorem oneShot_encode (msgs : List WireMsg) (hwf : ∀ m ∈ msgs, wfWire m) :
    drainLoop ⟨(msgs.map encodeWire).flatten, none⟩ = (msgs, ⟨[], none⟩) := by
  induction msgs with
  | nil =>
    simp only [List.map_nil, List.flatten_nil]
    exact drainLoop_eq_none _ _ rfl
  | cons m rest ih =>
    simp only [List.map_cons, List.flatten_cons]
    rw [drainLoop_eq_some _ m ⟨(rest.map encodeWire).flatten, none⟩
      (parseOne_encode m (hwf m (List.mem_cons_self m rest)) _)]
    rw [ih (fun x hx => hwf x (List.mem_cons_of_mem m hx))]

/-- C4: for every sequence of well-formed peer-wire messages and every
split of the concatenated encoding into chunks, feeding the chunks
through the incremental parser (draining `_parse_one` after each chunk)
emits exactly the same message sequence as a one-shot parse of the
whole stream — and that common sequence is the original message list. -/
theorem framing_parser_spec (msgs : List WireMsg) (hwf : ∀ m ∈ msgs, wfWire m)
    (chunks : List (List Nat)) (hjoin : chunks.flatten = (msgs.map encodeWire).flatten) :
    (feedAll ⟨[], none⟩ chunks).1 = oneShotParse chunks.flatten ∧
      oneShotParse chunks.flatten = msgs := by
  have hfeed := feedAll_drains chunks ⟨[], none⟩ rfl
  constructor
  · rw [hfeed]
    simp only [List.nil_append]
    rfl
  · rw [oneShotParse, hjoin, oneShot_encode msgs hwf]

theorem framing_parser_spec_witness :
    (feedAll ⟨[], none⟩ [[0, 0, 0], [0, 0, 0, 0, 3, 7, 9, 9]]).1 =
        oneShotParse [0, 0, 0, 0, 0, 0, 0, 3, 7, 9, 9] ∧
      oneShotParse [0, 0, 0, 0, 0, 0, 0, 3, 7, 9, 9] =
        [WireMsg.keepAlive, WireMsg.message 7 [9, 9]] := by
  have h := framing_parser_spec [WireMsg.keepAlive, WireMsg.message 7 [9, 9]]
    (by decide) [[0, 0, 0], [0, 0, 0, 0, 3, 7, 9, 9]] (by decide)
  exact ⟨(by simpa using h.1), (by simpa using h.2)⟩

/-! ## Bencode round trip (C5) -/

theorem natDigitsAux_mem (fuel : Nat) :
    ∀ m : Nat, ∀ c ∈ natDigitsAux fuel m, 48 ≤ c ∧ c ≤ 57 := by
  induction fuel with
  | zero => intro m c hc; simp [natDigitsAux] at hc
  | succ fuel ih =>
    intro m c hc
    unfold natDigitsAux at hc
    split at hc
    · simp at hc
    · rcases List.mem_append.mp hc with hc | hc
      · exact ih (m / 10) c hc
      · rw [List.mem_singleton] at hc
        have := Nat.mod_lt m (show 0 < 10 from by norm_num)
        omega

theorem natDigits_mem (m : Nat) : ∀ c ∈ natDigits m, 48 ≤ c ∧ c ≤ 57 := by
  intro c hc
  unfold natDigits at hc
  split at hc
  · simp at hc
    omega
  · exact natDigitsAux_mem m m c hc

theorem natDigits_ne_nil (m : Nat) : natDigits m ≠ [] := by
  unfold natDigits
  split
  · simp
  · rename_i hm
    rcases hf : m with _ | f
    · exact absurd hf hm
    · simp only [natDigitsAux]
      rw [if_neg (by omega : ¬(f + 1 = 0))]
      simp

theorem intDigits_mem (n : Int) : ∀ c ∈ intDigits n, c = 45 ∨ (48 ≤ c ∧ c ≤ 57) := by
  intro c hc
  unfold intDigits at hc
  split at hc
  · rcases List.mem_cons.mp hc with hc | hc
    · exact Or.inl hc
    · exact Or.inr (natDigits_mem _ c hc)
  · exact Or.inr (natDigits_mem _ c hc)

theorem natDigitsAux_foldl (fuel : Nat) :
    ∀ m : Nat, m ≤ fuel → ∀ a : Nat,
      (natDigitsAux fuel m).foldl (fun x d => 10 * x + (d - 48)) a =
        a * 10 ^ (natDigitsAux fuel m).length + m := by
  induction fuel with
  | zero =>
    intro m hm a
    have : m = 0 := by omega
    subst this
    simp [natDigitsAux]
  | succ fuel ih =>
    intro m hm a
    unfold natDigitsAux
    split
    · rename_i hm0
      subst hm0
      simp
    · rename_i hm0
      have hdiv : m / 10 ≤ fuel := by
        have := Nat.div_lt_self (by omega : 0 < m) (by norm_num : 1 < 10)
        omega
      rw [List.foldl_append, ih (m / 10) hdiv a]
      simp only [List.foldl_cons, List.foldl_nil, List.length_append,
        List.length_cons, List.length_nil]
      have hmod : 48 + m % 10 - 48 = m % 10 := by omega
      rw [hmod]
      have hdm := Nat.div_add_mod m 10
      ring_nf
      omega

theorem pyParseNat_natDigits (m : Nat) : pyParseNat (natDigits m) = some m := by
  by_cases hm : m = 0
  · subst hm
    decide
  · unfold pyParseNat
    rw [if_pos ⟨natDigits_ne_nil m, by
      rw [List.all_eq_true]
      intro c hc
      have := natDigits_mem m c hc
      simp [isDigitByte]
      omega⟩]
    unfold natDigits
    rw [if_neg hm]
    rw [natDigitsAux_foldl m m (le_refl m) 0]
    simp

theorem pyParseInt_natDigits (m : Nat) : pyParseInt (natDigits m) = some (m : Int) := by
  rcases hnd : natDigits m with _ | ⟨c, cs⟩
  · exact absurd hnd (natDigits_ne_nil m)
  · have hc := natDigits_mem m c (by rw [hnd]; exact List.mem_cons_self c cs)
    unfold pyParseInt
    rw [if_neg (by simp only [List.headD_cons]; omega)]
    rw [← hnd, pyParseNat_natDigits]
    rfl

theorem pyParseInt_intDigits (n : Int) : pyParseInt (intDigits n) = some n := by
  unfold intDigits
  split
  · rename_i hneg
    unfold pyParseInt
    rw [if_pos (by simp)]
    rw [show ((45 :: natDigits (-n).toNat).drop 1) = natDigits (-n).toNat from rfl]
    rw [pyParseNat_natDigits]
    have ht : ((-n).toNat : Int) = -n := Int.toNat_of_nonneg (by omega)
    simp [ht]
  · rename_i hpos
    rw [pyParseInt_natDigits]
    congr 1
    exact Int.toNat_of_nonneg (by omega)

theorem findByte_append (t : Nat) (l1 l2 : List Nat) (h : ∀ c ∈ l1, c ≠ t) :
    findByte t (l1 ++ t :: l2) = some l1.length := by
  induction l1 with
  | nil => simp [findByte]
  | cons a rest ih =>
    simp only [List.cons_append, findByte, List.append_eq]
    rw [if_neg (h a (List.mem_cons_self a rest))]
    rw [ih (fun c hc => h c (List.mem_cons_of_mem a hc))]
    rfl

theorem encodeHead (x : BVal) : ∃ hd tl, bencodeEncode x = hd :: tl ∧ hd ≠ 101 := by
  cases x with
  | int n => exact ⟨105, _, rfl, by omega⟩
  | str b =>
    rcases hnd : natDigits b.length with _ | ⟨c, cs⟩
    · exact absurd hnd (natDigits_ne_nil _)
    · have hc := natDigits_mem _ c (by rw [hnd]; exact List.mem_cons_self c cs)
      refine ⟨c, cs ++ 58 :: b, ?_, by omega⟩
      simp [bencodeEncode, hnd]
  | bytes b =>
    rcases hnd : natDigits b.length with _ | ⟨c, cs⟩
    · exact absurd hnd (natDigits_ne_nil _)
    · have hc := natDigits_mem _ c (by rw [hnd]; exact List.mem_cons_self c cs)
      refine ⟨c, cs ++ 58 :: b, ?_, by omega⟩
      simp [bencodeEncode, hnd]
  | list l => exact ⟨108, _, rfl, by omega⟩
  | dict ps => exact ⟨100, _, rfl, by omega⟩

theorem bytesLt_irrefl (l : List Nat) : bytesLt l l = false := by
  induction l with
  | nil => rfl
  | cons a rest ih => simp [bytesLt, ih]

theorem dictInsert_append (acc : List (BVal × BVal)) (k v : BVal)
    (h : ∀ e ∈ acc, e.1 ≠ k) : dictInsert acc k v = acc ++ [(k, v)] := by
  have hcond : acc.any (fun e => e.1 = k) = false := by
    rw [List.any_eq_false]
    intro e hmem
    simpa using h e hmem
  unfold dictInsert
  rw [hcond]
  simp

theorem natDigits_length_pos (m : Nat) : 1 ≤ (natDigits m).length := by
  rcases hnd : natDigits m with _ | ⟨c, cs⟩
  · exact absurd hnd (natDigits_ne_nil m)
  · simp

theorem intDigits_length_pos (n : Int) : 1 ≤ (intDigits n).length := by
  unfold intDigits
  split
  · simp
  · exact natDigits_length_pos _

mutual

theorem bsize_le_enc : (x : BVal) → bsize x + 1 ≤ (bencodeEncode x).length
  | BVal.int n => by
    have h1 := intDigits_length_pos n
    simp only [bsize, bencodeEncode, List.length_cons, List.length_append]
    omega
  | BVal.str b => by
    have h1 := natDigits_length_pos b.length
    simp only [bsize, bencodeEncode, List.length_append, List.length_cons]
    omega
  | BVal.bytes b => by
    have h1 := natDigits_length_pos b.length
    simp only [bsize, bencodeEncode, List.length_append, List.length_cons]
    omega
  | BVal.list l => by
    have h1 := bsizeList_le_enc l
    simp only [bsize, bencodeEncode, List.length_cons, List.length_append]
    omega
  | BVal.dict ps => by
    have h1 := bsizePairs_le_enc ps
    simp only [bsize, bencodeEncode, List.length_cons, List.length_append]
    omega

theorem bsizeList_le_enc : (l : List BVal) → bsizeList l ≤ (bencodeEncodeList l).length
  | [] => by simp [bsizeList, bencodeEncodeList]
  | v :: vs => by
    have h1 := bsize_le_enc v
    have h2 := bsizeList_le_enc vs
    simp only [bsizeList, bencodeEncodeList, List.length_append]
    omega

theorem bsizePairs_le_enc :
    (ps : List (BVal × BVal)) → bsizePairs ps ≤ (bencodeEncodePairs ps).length
  | [] => by simp [bsizePairs, bencodeEncodePairs]
  | (k, v) :: rest => by
    have h1 := bsize_le_enc k
    have h2 := bsize_le_enc v
    have h3 := bsizePairs_le_enc rest
    simp only [bsizePairs, bencodeEncodePairs, List.length_append]
    omega

end

theorem pySlice_of_append (pre mid post : List Nat) :
    pySlice (pre ++ (mid ++ post)) pre.length (pre.length + mid.length) = mid := by
  unfold pySlice
  rw [List.drop_left]
  rw [show pre.length + mid.length - pre.length = mid.length from by omega]
  exact List.take_left _ _

theorem canonPairs_keySome (u : List Nat → Bool) :
    ∀ ps : List (BVal × BVal), canonPairs u ps = true →
      ∀ e ∈ ps, (keyBytes e.1).isSome = true := by
  intro ps
  induction ps with
  | nil => intro _ e he; simp at he
  | cons p rest ih =>
    obtain ⟨k, v⟩ := p
    intro hc e he
    simp only [canonPairs, Bool.and_eq_true] at hc
    rcases List.mem_cons.mp he with he | he
    · subst he
      exact hc.1.1.1
    · exact ih hc.2 e he

theorem decodeVal_int_aux (u : List Nat → Bool) (fuel : Nat) (n : Int) (suffix : List Nat) :
    decodeVal u (fuel + 1) (bencodeEncode (BVal.int n) ++ suffix) =
      some (BVal.int n, (bencodeEncode (BVal.int n)).length) := by
  rw [show bencodeEncode (BVal.int n) ++ suffix =
    105 :: (intDigits n ++ 101 :: suffix) from by simp [bencodeEncode]]
  unfold decodeVal
  dsimp only
  rw [if_pos rfl]
  have hfb := findByte_append 101 (105 :: intDigits n) suffix (by
    intro c hcm
    rcases List.mem_cons.mp hcm with hcm | hcm
    · omega
    · rcases intDigits_mem n c hcm with hcm | hcm <;> omega)
  simp only [List.cons_append, List.length_cons] at hfb
  rw [hfb]
  dsimp only
  have hsl : pySlice (105 :: (intDigits n ++ 101 :: suffix)) 1
      ((intDigits n).length + 1) = intDigits n := by
    have h2 := pySlice_of_append [105] (intDigits n) (101 :: suffix)
    rw [show ([105] ++ (intDigits n ++ 101 :: suffix) : List Nat) =
      105 :: (intDigits n ++ 101 :: suffix) from rfl] at h2
    rw [show ([105] : List Nat).length = 1 from rfl] at h2
    rw [show 1 + (intDigits n).length = (intDigits n).length + 1 from by omega] at h2
    exact h2
  rw [hsl, pyParseInt_intDigits]
  dsimp only
  simp [bencodeEncode, List.length_append]

theorem decodeVal_str_aux (u : List Nat → Bool) (fuel : Nat) (b suffix : List Nat) :
    decodeVal u (fuel + 1) ((natDigits b.length ++ 58 :: b) ++ suffix) =
      some (if u b then BVal.str b else BVal.bytes b,
        (natDigits b.length ++ 58 :: b).length) := by
  rcases hnd : natDigits b.length with _ | ⟨c, cs⟩
  · exact absurd hnd (natDigits_ne_nil _)
  have hdig : ∀ y ∈ c :: cs, 48 ≤ y ∧ y ≤ 57 := by
    intro y hy
    exact natDigits_mem b.length y (by rw [hnd]; exact hy)
  have hcd := hdig c (List.mem_cons_self c cs)
  rw [show (c :: cs ++ 58 :: b) ++ suffix =
    c :: (cs ++ 58 :: (b ++ suffix)) from by simp]
  unfold decodeVal
  dsimp only
  rw [if_neg (by omega : ¬c = 105)]
  rw [if_pos (by simp only [isDigitByte, Bool.and_eq_true, decide_eq_true_eq]; omega)]
  have hfb := findByte_append 58 (c :: cs) (b ++ suffix) (by
    intro y hy
    have := hdig y hy
    omega)
  simp only [List.cons_append, List.length_cons] at hfb
  rw [hfb]
  dsimp only
  have hsl0 : pySlice (c :: (cs ++ 58 :: (b ++ suffix))) 0 (cs.length + 1) = c :: cs := by
    unfold pySlice
    simp only [List.drop_zero, Nat.sub_zero]
    rw [show (c :: (cs ++ 58 :: (b ++ suffix)) : List Nat) =
      (c :: cs) ++ (58 :: (b ++ suffix)) from by simp]
    rw [show cs.length + 1 = (c :: cs : List Nat).length from by simp]
    exact List.take_left _ _
  rw [hsl0]
  rw [show pyParseInt (c :: cs) = some (b.length : Int) from by
    rw [← hnd]; exact pyParseInt_natDigits _]
  dsimp only
  have hraw : pySlice (c :: (cs ++ 58 :: (b ++ suffix))) (cs.length + 1 + 1)
      (cs.length + 1 + 1 + (b.length : Int).toNat) = b := by
    have h2 := pySlice_of_append ((c :: cs) ++ [58]) b suffix
    rw [show (((c :: cs) ++ [58]) ++ (b ++ suffix) : List Nat) =
      c :: (cs ++ 58 :: (b ++ suffix)) from by simp] at h2
    rw [show ((c :: cs) ++ [58] : List Nat).length = cs.length + 1 + 1 from by simp] at h2
    rw [show (b.length : Int).toNat = b.length from by simp]
    exact h2
  rw [hraw]
  rw [show (c :: cs ++ 58 :: b : List Nat).length =
    cs.length + 1 + 1 + (b.length : Int).toNat from by simp; omega]

theorem decode_encode_fuel (u : List Nat → Bool) (fuel : Nat) :
    (∀ x : BVal, canon u x = true → bsize x < fuel → ∀ suffix : List Nat,
      decodeVal u fuel (bencodeEncode x ++ suffix) = some (x, (bencodeEncode x).length)) ∧
    (∀ vs : List BVal, canonList u vs = true → bsizeList vs < fuel → ∀ suffix : List Nat,
      decodeItems u fuel (bencodeEncodeList vs ++ 101 :: suffix) =
        some (vs, (bencodeEncodeList vs).length + 1)) ∧
    (∀ ps : List (BVal × BVal), canonPairs u ps = true →
      keysSorted (ps.filterMap (fun e => keyBytes e.1)) = true →
      bsizePairs ps < fuel → ∀ (acc : List (BVal × BVal)) (suffix : List Nat),
      (∀ e ∈ ps, ∀ e2 ∈ acc, e2.1 ≠ e.1) →
      decodeEntries u fuel (bencodeEncodePairs ps ++ 101 :: suffix) acc =
        some (acc ++ ps, (bencodeEncodePairs ps).length + 1)) := by
  induction fuel with
  | zero =>
    refine ⟨?_, ?_, ?_⟩
    · intro x _ hlt _
      omega
    · intro vs _ hlt _
      omega
    · intro ps _ _ hlt _ _ _
      omega
  | succ fuel ih =>
    obtain ⟨ihV, ihI, ihE⟩ := ih
    refine ⟨?_, ?_, ?_⟩
    · intro x hc hlt suffix
      cases x with
      | int n => exact decodeVal_int_aux u fuel n suffix
      | str b =>
        simp only [canon] at hc
        rw [show bencodeEncode (BVal.str b) = natDigits b.length ++ 58 :: b from rfl]
        rw [decodeVal_str_aux u fuel b suffix, if_pos hc]
      | bytes b =>
        simp only [canon, Bool.not_eq_true'] at hc
        rw [show bencodeEncode (BVal.bytes b) = natDigits b.length ++ 58 :: b from rfl]
        rw [decodeVal_str_aux u fuel b suffix, if_neg (by simp [hc])]
      | list l =>
        simp only [canon] at hc
        simp only [bsize] at hlt
        rw [show bencodeEncode (BVal.list l) ++ suffix =
          108 :: (bencodeEncodeList l ++ 101 :: suffix) from by simp [bencodeEncode]]
        unfold decodeVal
        dsimp only
        rw [if_neg (by omega : ¬(108 : Nat) = 105)]
        rw [if_neg (by simp [isDigitByte] : ¬isDigitByte 108 = true)]
        rw [if_pos rfl]
        rw [ihI l hc (by omega) suffix]
        simp [bencodeEncode, List.length_append]
      | dict ps =>
        simp only [canon, Bool.and_eq_true] at hc
        simp only [bsize] at hlt
        rw [show bencodeEncode (BVal.dict ps) ++ suffix =
          100 :: (bencodeEncodePairs ps ++ 101 :: suffix) from by simp [bencodeEncode]]
        unfold decodeVal
        dsimp only
        rw [if_neg (by omega : ¬(100 : Nat) = 105)]
        rw [if_neg (by simp [isDigitByte] : ¬isDigitByte 100 = true)]
        rw [if_neg (by omega : ¬(100 : Nat) = 108)]
        rw [if_pos rfl]
        rw [ihE ps hc.1 hc.2 (by omega) [] suffix (by
          intro e he e2 h2
          simp at h2)]
        simp [bencodeEncode, List.length_append]
    · intro vs hc hlt suffix
      cases vs with
      | nil =>
        rw [show bencodeEncodeList [] ++ 101 :: suffix = 101 :: suffix from by
          simp [bencodeEncodeList]]
        unfold decodeItems
        rw [if_pos (show (101 :: suffix).head? = some 101 from rfl)]
        simp [bencodeEncodeList]
      | cons v vs =>
        simp only [canonList, Bool.and_eq_true] at hc
        simp only [bsizeList] at hlt
        rw [show bencodeEncodeList (v :: vs) ++ 101 :: suffix =
          bencodeEncode v ++ (bencodeEncodeList vs ++ 101 :: suffix) from by
          simp [bencodeEncodeList]]
        unfold decodeItems
        obtain ⟨hd, tl, hhd, hne⟩ := encodeHead v
        rw [if_neg (by
          rw [hhd]
          simp only [List.cons_append, List.head?_cons, Option.some.injEq]
          exact hne)]
        rw [ihV v hc.1 (by omega) (bencodeEncodeList vs ++ 101 :: suffix)]
        dsimp only
        rw [List.drop_left]
        rw [ihI vs hc.2 (by omega) suffix]
        dsimp only
        rw [show (bencodeEncodeList (v :: vs)).length + 1 =
          (bencodeEncode v).length + ((bencodeEncodeList vs).length + 1) from by
          simp [bencodeEncodeList, List.length_append]
          omega]
    · intro ps hc hsort hlt acc suffix hdisj
      cases ps with
      | nil =>
        rw [show bencodeEncodePairs [] ++ 101 :: suffix = 101 :: suffix from by
          simp [bencodeEncodePairs]]
        unfold decodeEntries
        rw [if_pos (show (101 :: suffix).head? = some 101 from rfl)]
        simp [bencodeEncodePairs]
      | cons p rest =>
        obtain ⟨k, v⟩ := p
        simp only [canonPairs, Bool.and_eq_true] at hc
        obtain ⟨⟨⟨hksome, hck⟩, hcv⟩, hcrest⟩ := hc
        obtain ⟨kb, hkb⟩ := Option.isSome_iff_exists.mp hksome
        rw [List.filterMap_cons] at hsort
        simp only [hkb] at hsort
        simp only [keysSorted, Bool.and_eq_true, List.all_eq_true] at hsort
        obtain ⟨hall, hsortrest⟩ := hsort
        simp only [bsizePairs] at hlt
        rw [show bencodeEncodePairs ((k, v) :: rest) ++ 101 :: suffix =
          bencodeEncode k ++ (bencodeEncode v ++ (bencodeEncodePairs rest ++ 101 :: suffix))
          from by simp [bencodeEncodePairs]]
        unfold decodeEntries
        obtain ⟨hd, tl, hhd, hne⟩ := encodeHead k
        rw [if_neg (by
          rw [hhd]
          simp only [List.cons_append, List.head?_cons, Option.some.injEq]
          exact hne)]
        rw [ihV k hck (by omega)
          (bencodeEncode v ++ (bencodeEncodePairs rest ++ 101 :: suffix))]
        dsimp only
        rw [List.drop_left]
        rw [ihV v hcv (by omega) (bencodeEncodePairs rest ++ 101 :: suffix)]
        dsimp only
        rw [List.drop_left]
        rw [dictInsert_append acc k v (fun e2 h2 =>
          hdisj (k, v) (List.mem_cons_self _ _) e2 h2)]
        rw [ihE rest hcrest hsortrest (by omega) (acc ++ [(k, v)]) suffix (by
          intro e he e2 h2
          rcases List.mem_append.mp h2 with h2 | h2
          · exact hdisj e (List.mem_cons_of_mem _ he) e2 h2
          · rw [List.mem_singleton] at h2
            subst h2
            intro hkey
            have hkey2 : k = e.1 := hkey
            have hesome := canonPairs_keySome u rest hcrest e he
            obtain ⟨kbe, hkbe⟩ := Option.isSome_iff_exists.mp hesome
            have hmem : kbe ∈ rest.filterMap (fun e => keyBytes e.1) :=
              List.mem_filterMap.mpr ⟨e, he, hkbe⟩
            have hlt2 := hall kbe hmem
            rw [hkey2, hkbe] at hkb
            have hkk : kbe = kb := by
              injection hkb
            rw [hkk, bytesLt_irrefl] at hlt2
            simp at hlt2)]
        rw [show (acc ++ [(k, v)]) ++ rest = acc ++ (k, v) :: rest from by simp]
        rw [show (bencodeEncodePairs ((k, v) :: rest)).length + 1 =
          (bencodeEncode k).length + ((bencodeEncode v).length +
            ((bencodeEncodePairs rest).length + 1)) from by
          simp [bencodeEncodePairs, List.length_append]
          omega]
        dsimp only
        rw [Nat.add_assoc]

/-- C5: decoding the canonical encoding of a bencode value returns the
value: for every `x` built from integers, byte strings, lists and
dictionaries with byte-string keys — in canonical form: dictionary keys
in strictly ascending byte order, and each byte string already surfaced
the way the decoder would surface it (text iff it is valid UTF-8, the
abstract predicate `u`) — `bencode_decode (bencodeEncode x) = some x`. -/
theorem bencode_roundtrip (u : List Nat → Bool) (x : BVal) (hc : canon u x = true) :
    bencode_decode u (bencodeEncode x) = some x := by
  have hb := bsize_le_enc x
  have h := (decode_encode_fuel u ((bencodeEncode x).length + 1)).1 x hc (by omega) []
  rw [List.append_nil] at h
  unfold bencode_decode
  rw [h]
  simp

theorem bencode_roundtrip_witness :
    canon (fun _ => true) (BVal.dict [(BVal.str [107], BVal.int 7)]) = true ∧
      bencodeEncode (BVal.dict [(BVal.str [107], BVal.int 7)]) =
        [100, 49, 58, 107, 105, 55, 101, 101] ∧
      bencode_decode (fun _ => true)
          (bencodeEncode (BVal.dict [(BVal.str [107], BVal.int 7)])) =
        some (BVal.dict [(BVal.str [107], BVal.int 7)]) :=
  ⟨by decide, by decide, bencode_roundtrip (fun _ => true) _ (by decide)⟩

end PyTorrent
